import Mathlib



/-!
# Verification of the `urlenc` reflective query-string codec

This file embeds the codec engine of `urlenc.go` (package `urlenc`) in Lean 4
and proves properties of the embedding.  Go strings are modelled as `List Char`
where each `Char` stands for one byte (the well-formedness predicate `ByteWF`
restricts codes to `< 256`); `net/url` escaping, `url.Values`, `url.ParseQuery`
and `url.Values.Encode` are modelled byte-for-byte from the Go standard library
because the engine's observable behaviour goes through them.

Scope of the value universe: the embedding covers the string and integer
fragment of the engine (string, int, int8/16/32/64, uint, uint8/16/32/64 and
slices of those).  `float32`/`float64` fields, whose conversion goes through
IEEE-754 `strconv.FormatFloat`/`ParseFloat`, are outside the embedding, as are
the `Valuer`/`Setter` per-field extension hooks; no claim below depends on
either.  Go's schema cache (`type2fields`) memoizes a pure function of the
type, so it is modelled as the pure function `getStructFields`.
-/

/-- A Go string, as its list of bytes (each `Char` is one byte). -/
abbrev GoStr := List Char

/-- Lift a Lean string literal (ASCII in all uses below) to a `GoStr`. -/
def gs (s : String) : GoStr := s.data

/-- All bytes of the string are genuine bytes (`< 256`). -/
def ByteWF (s : GoStr) : Prop := ∀ c ∈ s, c.toNat < 256

instance : DecidablePred ByteWF := fun s =>
  inferInstanceAs (Decidable (∀ c ∈ s, c.toNat < 256))

/-- `strings.Cut(s, c)`: the part before the first occurrence of `c` and the
part after it; `(s, "")` when `c` does not occur. -/
def cutChar (c : Char) : GoStr → GoStr × GoStr
  | [] => ([], [])
  | x :: xs =>
    if x = c then ([], xs)
    else
      let p := cutChar c xs
      (x :: p.1, p.2)

/-- `strings.Split(s, c)` for a one-byte separator (also the segment sequence
produced by iterating `strings.Cut` as `url.parseQuery` does). -/
def splitOnChar (c : Char) : GoStr → List GoStr
  | [] => [[]]
  | x :: xs =>
    if x = c then [] :: splitOnChar c xs
    else
      match splitOnChar c xs with
      | [] => [[x]]
      | s :: ss => (x :: s) :: ss

/-- The whitespace class of Go's regexp `\s`, namely `[\t\n\f\r ]`. -/
def isWSByte (c : Char) : Bool :=
  c = ' ' || c = '\t' || c = '\n' || c = '\x0c' || c = '\r'

/-- The whitespace split `wssplitRx.Split(s, -1)` (regexp `\s+`): split around
maximal runs of whitespace, keeping boundary empties (the engine only probes
the resulting tokens with a `HasPrefix` test). -/
def wssplitAux : Nat → GoStr → List GoStr
  | 0, _ => [[]]
  | _ + 1, [] => [[]]
  | fuel + 1, c :: rest =>
    if isWSByte c then [] :: wssplitAux fuel (rest.dropWhile isWSByte)
    else
      match wssplitAux fuel rest with
      | [] => [[c]]
      | s :: ss => (c :: s) :: ss

/-- Entry point with enough fuel for the whole string (each step consumes at
least one byte). -/
def wssplit (s : GoStr) : List GoStr := wssplitAux (s.length + 1) s

/-- The ASCII part of `unicode.IsSpace`, used by `strings.TrimSpace` (all tag
text in scope is ASCII). -/
def isSpaceByte (c : Char) : Bool :=
  c = ' ' || c = '\t' || c = '\n' || c = '\x0b' || c = '\x0c' || c = '\r'

/-- `strings.TrimSpace`. -/
def trimSpace (s : GoStr) : GoStr :=
  ((s.dropWhile isSpaceByte).reverse.dropWhile isSpaceByte).reverse

/-- `strings.SplitN(s, c, n)` for a one-byte separator: at most `n` parts, the
last part keeping the unsplit remainder. -/
def splitN (s : GoStr) (c : Char) (n : Nat) : List GoStr :=
  let parts := splitOnChar c s
  if parts.length ≤ n then parts
  else parts.take (n - 1) ++ [List.intercalate [c] (parts.drop (n - 1))]

/-- `strings.HasPrefix`. -/
def hasPre (pre s : GoStr) : Bool := pre.isPrefixOf s

/-! ## `net/url` escaping (query-component mode)

Modelled from Go's `url.QueryEscape` / `url.QueryUnescape`: unreserved bytes
(alphanumerics and `-_.~`) pass through, space becomes `+`, every other byte
becomes `%XX` with uppercase hex. -/

/-- Uppercase hex digit of a nibble, from `net/url`'s `"0123456789ABCDEF"`. -/
def hexDigitUpper (n : Nat) : Char :=
  if n < 10 then Char.ofNat (48 + n) else Char.ofNat (55 + n)

/-- The value of a hex digit byte, as accepted by `net/url`'s `unhex`. -/
def unhex (c : Char) : Option Nat :=
  if '0' ≤ c ∧ c ≤ '9' then some (c.toNat - 48)
  else if 'a' ≤ c ∧ c ≤ 'f' then some (c.toNat - 87)
  else if 'A' ≤ c ∧ c ≤ 'F' then some (c.toNat - 55)
  else none

/-- Go `shouldEscape(c, encodeQueryComponent)` is false exactly for these. -/
def isUnreserved (c : Char) : Bool :=
  ('A' ≤ c && c ≤ 'Z') || ('a' ≤ c && c ≤ 'z') || ('0' ≤ c && c ≤ '9') ||
    c = '-' || c = '_' || c = '.' || c = '~'

/-- One byte of `url.QueryEscape` output. -/
def escapeByte (c : Char) : GoStr :=
  if isUnreserved c then [c]
  else if c = ' ' then ['+']
  else ['%', hexDigitUpper (c.toNat / 16 % 16), hexDigitUpper (c.toNat % 16)]

/-- `url.QueryEscape`. -/
def queryEscape (s : GoStr) : GoStr := (s.map escapeByte).flatten

/-- `url.QueryUnescape` (query-component mode): `+` means space, `%XX` must be
followed by two hex digits, everything else passes through. -/
def queryUnescape : GoStr → Except String GoStr
  | [] => .ok []
  | '%' :: a :: b :: rest =>
    match unhex a, unhex b with
    | some x, some y => (fun t => Char.ofNat (16 * x + y) :: t) <$> queryUnescape rest
    | _, _ => .error "invalid URL escape"
  | '%' :: _ => .error "invalid URL escape"
  | '+' :: rest => (fun t => ' ' :: t) <$> queryUnescape rest
  | c :: rest => (fun t => c :: t) <$> queryUnescape rest

/-! ## `url.Values` (the ordered multi-map) -/

/-- `url.Values`: a map from key to ordered list of values.  Go uses a hash
map; the association list stands for it, and every constructor below keeps the
keys duplicate-free, so lookups characterize the map. -/
abbrev Values := List (GoStr × List GoStr)

/-- `uv.Add(k, v)`: append `v` to the list for `k` (`m[k] = append(m[k], v)`). -/
def valuesAdd (uv : Values) (k : GoStr) (v : GoStr) : Values :=
  match uv with
  | [] => [(k, [v])]
  | (k0, vs) :: rest =>
    if k0 = k then (k0, vs ++ [v]) :: rest else (k0, vs) :: valuesAdd rest k v

/-- Map lookup `q[k]` (as an `Option`; Go yields `nil` for a missing key). -/
def valuesGet (uv : Values) (k : GoStr) : Option (List GoStr) :=
  match uv with
  | [] => none
  | (k0, vs) :: rest => if k0 = k then some vs else valuesGet rest k

/-- Join segments with `&` (the buffer loop writes `&` before every segment
but the first). -/
def joinAmp : List GoStr → GoStr
  | [] => []
  | [s] => s
  | s :: ss => s ++ '&' :: joinAmp ss

/-- `url.Values.Encode`: emit `k=v` segments for every value, keys in sorted
order (Go `sort.Strings`, byte-wise lexicographic), values of one key kept
contiguous and in order, all joined with `&`. -/
def encodeValues (uv : Values) : GoStr :=
  let ks := List.insertionSort (· ≤ ·) (uv.map Prod.fst)
  let segs := ks.flatMap fun k =>
    ((valuesGet uv k).getD []).map fun v => queryEscape k ++ '=' :: queryEscape v
  joinAmp segs

/-- One step of `url.parseQuery`, processing the segment before the next `&`:
reject a semicolon, skip an empty segment, cut at the first `=`, unescape key
and value (keeping only the first error and skipping the bad pair), and add
the pair. -/
def parseQueryStep (acc : Values × Option String) (seg : GoStr) :
    Values × Option String :=
  if seg.contains ';' then
    (acc.1, some (acc.2.getD "invalid semicolon separator in query"))
  else if seg = [] then acc
  else
    match queryUnescape (cutChar '=' seg).1 with
    | .error e => (acc.1, some (acc.2.getD e))
    | .ok k =>
      match queryUnescape (cutChar '=' seg).2 with
      | .error e => (acc.1, some (acc.2.getD e))
      | .ok v => (valuesAdd acc.1 k v, acc.2)

/-- `url.ParseQuery`: fold the step over the `&`-separated segments; the
callers in `urlenc.go` treat a non-nil error as failure and discard the map,
hence the `Except`. -/
def parseQuery (data : GoStr) : Except String Values :=
  match (splitOnChar '&' data).foldl parseQueryStep ([], none) with
  | (m, none) => .ok m
  | (_, some e) => .error e

/-- Observation used to state text-level claims: the `(key, value)` pairs of
the query text in their textual order (the successfully-decoded pairs of the
segment list, exactly the ones `parseQuery` adds). -/
def queryPairs (data : GoStr) : List (GoStr × GoStr) :=
  (splitOnChar '&' data).filterMap fun seg =>
    if seg.contains ';' then none
    else if seg = [] then none
    else
      let kv := cutChar '=' seg
      match queryUnescape kv.1, queryUnescape kv.2 with
      | .ok k, .ok v => some (k, v)
      | _, _ => none

/-! ## The type and value universe

`GoKind`/`GoType` model the `reflect` kinds the engine classifies (string and
the fixed-width integer kinds, plus slices; `float32/float64` and `bool` are
outside the embedding — see the header).  A nested slice (`.slice (.slice _)`)
is a well-formed `GoType` that fails the classifier, which is how unsupported
field types are expressed. -/

inductive GoKind where
  | kstring | kint | kint8 | kint16 | kint32 | kint64
  | kuint | kuint8 | kuint16 | kuint32 | kuint64
deriving DecidableEq, Repr

inductive GoType where
  | prim (k : GoKind)
  | slice (elem : GoType)
deriving DecidableEq, Repr

/-- Signed integer kinds (the `Int*` cases of the source's switches). -/
def signedKind : GoKind → Bool
  | .kint | .kint8 | .kint16 | .kint32 | .kint64 => true
  | _ => false

/-- The `bitSize` each kind passes to `strconv.ParseInt`/`ParseUint`
(`int`/`uint` use 64 in the source). -/
def bitsOf : GoKind → Nat
  | .kstring => 0
  | .kint | .kint64 | .kuint | .kuint64 => 64
  | .kint8 | .kuint8 => 8
  | .kint16 | .kuint16 => 16
  | .kint32 | .kuint32 => 32

/-- `isStringOrNumeric` on the kind of a type: string and every integer kind
qualify, a slice does not (floats, also true in the source, are outside the
universe; `bool` and composite kinds are false there and are not expressible
here). -/
def isStringOrNumeric : GoType → Bool
  | .prim _ => true
  | .slice _ => false

/-- `isSupportedType`: scalars always, slices only at the outer level and only
with scalar elements (`reflect.Array`, treated like `Slice` in the source, is
outside the universe). -/
def isSupportedType (rt : GoType) (recurse : Bool) : Bool :=
  match rt with
  | .slice elem => if !recurse then false else isSupportedType elem false
  | .prim _ => isStringOrNumeric rt

/-- A Go value of the universe.  A slice value records whether it is the nil
slice (`isNil`) and its element type, as a `reflect.Value` does. -/
inductive GoValue where
  | vstr (s : GoStr)
  | vint (k : GoKind) (n : Int)
  | vslice (isNil : Bool) (elem : GoType) (elems : List GoValue)
deriving Repr

mutual

/-- Decidable equality of values (the nested list blocks auto-derivation). -/
def GoValue.deq : (a b : GoValue) → Decidable (a = b)
  | .vstr s, .vstr t =>
    if h : s = t then .isTrue (by rw [h]) else .isFalse (by simp [h])
  | .vstr _, .vint _ _ => .isFalse (by simp)
  | .vstr _, .vslice _ _ _ => .isFalse (by simp)
  | .vint _ _, .vstr _ => .isFalse (by simp)
  | .vint k n, .vint k2 n2 =>
    if h : k = k2 ∧ n = n2 then .isTrue (by rw [h.1, h.2])
    else .isFalse (by simp; intro h1; exact fun h2 => h ⟨h1, h2⟩)
  | .vint _ _, .vslice _ _ _ => .isFalse (by simp)
  | .vslice _ _ _, .vstr _ => .isFalse (by simp)
  | .vslice _ _ _, .vint _ _ => .isFalse (by simp)
  | .vslice b e l, .vslice b2 e2 l2 =>
    if h : b = b2 ∧ e = e2 then
      match GoValue.deqList l l2 with
      | .isTrue h2 => .isTrue (by rw [h.1, h.2, h2])
      | .isFalse h2 => .isFalse (by simp; intro _ _; exact h2)
    else .isFalse (by simp; intro h1 h2; exact absurd ⟨h1, h2⟩ h)

/-- Decidable equality of value lists. -/
def GoValue.deqList : (a b : List GoValue) → Decidable (a = b)
  | [], [] => .isTrue rfl
  | [], _ :: _ => .isFalse (by simp)
  | _ :: _, [] => .isFalse (by simp)
  | a :: as, b :: bs =>
    match GoValue.deq a b, GoValue.deqList as bs with
    | .isTrue h1, .isTrue h2 => .isTrue (by rw [h1, h2])
    | .isFalse h1, _ => .isFalse (by simp; intro h; exact absurd h h1)
    | _, .isFalse h2 => .isFalse (by simp; intro _ h; exact absurd h h2)

end

instance : DecidableEq GoValue := GoValue.deq

/-- `reflect.Value.Type()` of a universe value. -/
def typeOf : GoValue → GoType
  | .vstr _ => .prim .kstring
  | .vint k _ => .prim k
  | .vslice _ e _ => .slice e

/-- `reflect.Zero(t)`: empty string, zero integer, nil slice. -/
def zeroOf : GoType → GoValue
  | .prim .kstring => .vstr []
  | .prim k => .vint k 0
  | .slice e => .vslice true e []

/-- The value range of an integer kind. -/
def kindRange (k : GoKind) (n : Int) : Prop :=
  if signedKind k then -(2 ^ (bitsOf k - 1) : Int) ≤ n ∧ n < 2 ^ (bitsOf k - 1)
  else 0 ≤ n ∧ n < 2 ^ bitsOf k

instance (k : GoKind) (n : Int) : Decidable (kindRange k n) := by
  unfold kindRange; infer_instance

/-- Well-typedness of a value at a type (computable): the tags agree, integers
are in their kind's range, strings are byte strings, a nil slice has no
elements, and elements are recursively well-typed. -/
def WT : GoType → GoValue → Bool
  | .prim .kstring, .vstr s => decide (ByteWF s)
  | .prim k, .vint k2 n => k2 == k && !(k == .kstring) && decide (kindRange k n)
  | .slice e, .vslice isNil e2 elems =>
    e2 == e && (!isNil || elems.isEmpty) && elems.all (fun v => WT e v)
  | _, _ => false

/-! ## `strconv` formatting and parsing (base 10) -/

/-- The decimal digits of `n`, least significant first (empty for `0`). -/
def natDigitsRev (n : Nat) : List Char :=
  if n = 0 then [] else Char.ofNat (48 + n % 10) :: natDigitsRev (n / 10)
termination_by n
decreasing_by exact Nat.div_lt_self (Nat.pos_of_ne_zero (by assumption)) (by norm_num)

/-- Decimal rendering of a natural number (`strconv.FormatUint`). -/
def natRepr (n : Nat) : GoStr :=
  if n = 0 then ['0'] else (natDigitsRev n).reverse

/-- `strconv.FormatInt(n, 10)`. -/
def formatInt (n : Int) : GoStr :=
  if n < 0 then '-' :: natRepr n.natAbs else natRepr n.natAbs

/-- The value of a decimal digit byte. -/
def digitVal (c : Char) : Option Nat :=
  if '0' ≤ c ∧ c ≤ '9' then some (c.toNat - 48) else none

/-- Accumulating decimal parse; fails on any non-digit. -/
def parseDigitsAux (acc : Nat) : List Char → Option Nat
  | [] => some acc
  | c :: rest =>
    match digitVal c with
    | some d => parseDigitsAux (acc * 10 + d) rest
    | none => none

/-- All-digits parse of a non-empty string. -/
def parseDigits (s : GoStr) : Option Nat :=
  match s with
  | [] => none
  | _ => parseDigitsAux 0 s

/-- The digits-and-range phase shared by the sign cases of
`strconv.ParseInt`: parse the decimal magnitude and check it against
`[-2^(bits-1), 2^(bits-1))`. -/
def parseIntMag (bits : Nat) (neg : Bool) (digits : GoStr) : Except String Int :=
  match parseDigits digits with
  | none => .error "strconv.ParseInt: invalid syntax"
  | some m =>
    if neg then
      if (m : Int) ≤ 2 ^ (bits - 1) then .ok (-(m : Int))
      else .error "strconv.ParseInt: value out of range"
    else
      if (m : Int) < 2 ^ (bits - 1) then .ok (m : Int)
      else .error "strconv.ParseInt: value out of range"

/-- `strconv.ParseInt(s, 10, bits)`: optional sign, decimal digits, range
check.  (On failure Go also returns a clamped value, which every caller in
scope discards.) -/
def parseIntGo (bits : Nat) : GoStr → Except String Int
  | [] => .error "strconv.ParseInt: invalid syntax"
  | '-' :: rest => parseIntMag bits true rest
  | '+' :: rest => parseIntMag bits false rest
  | s => parseIntMag bits false s

/-- `strconv.ParseUint(s, 10, bits)`: no sign permitted, decimal digits, range
check against `[0, 2^bits)`. -/
def parseUintGo (bits : Nat) (s : GoStr) : Except String Int :=
  match parseDigits s with
  | none => .error "strconv.ParseUint: invalid syntax"
  | some m =>
    if (m : Int) < 2 ^ bits then .ok (m : Int)
    else .error "strconv.ParseUint: value out of range"

/-- `convertToString`: strings pass through, signed kinds use `FormatInt`,
unsigned kinds use `FormatUint` (rendered from the magnitude; an unsigned
value is never negative), anything else — here only slice values — hits the
default error. -/
def convertToString (rv : GoValue) : Except String GoStr :=
  match rv with
  | .vstr s => .ok s
  | .vint k n => if signedKind k then .ok (formatInt n) else .ok (natRepr n.natAbs)
  | .vslice _ _ _ => .error "urlenc: unsupported type to convert"

/-- `convertFromString`: one case per kind exactly as in the source; the
default case (a slice kind) is the source's "unsupported type" error. -/
def convertFromString (t : GoType) (v : GoStr) : Except String GoValue :=
  match t with
  | .prim .kstring => .ok (.vstr v)
  | .prim .kint => (GoValue.vint .kint) <$> parseIntGo 64 v
  | .prim .kint64 => (GoValue.vint .kint64) <$> parseIntGo 64 v
  | .prim .kint8 => (GoValue.vint .kint8) <$> parseIntGo 8 v
  | .prim .kint16 => (GoValue.vint .kint16) <$> parseIntGo 16 v
  | .prim .kint32 => (GoValue.vint .kint32) <$> parseIntGo 32 v
  | .prim .kuint => (GoValue.vint .kuint) <$> parseUintGo 64 v
  | .prim .kuint64 => (GoValue.vint .kuint64) <$> parseUintGo 64 v
  | .prim .kuint8 => (GoValue.vint .kuint8) <$> parseUintGo 8 v
  | .prim .kuint16 => (GoValue.vint .kuint16) <$> parseUintGo 16 v
  | .prim .kuint32 => (GoValue.vint .kuint32) <$> parseUintGo 32 v
  | .slice _ => .error "unsupported type"

/-! ## Struct tags and schema construction -/

/-- Convert a model string back into a Lean string (for error messages). -/
def gsStr (s : GoStr) : String := String.mk s

/-- Rendering of a type for error messages (`reflect.Type.String`-like). -/
def typeString : GoType → String
  | .prim .kstring => "string"
  | .prim .kint => "int"
  | .prim .kint8 => "int8"
  | .prim .kint16 => "int16"
  | .prim .kint32 => "int32"
  | .prim .kint64 => "int64"
  | .prim .kuint => "uint"
  | .prim .kuint8 => "uint8"
  | .prim .kuint16 => "uint16"
  | .prim .kuint32 => "uint32"
  | .prim .kuint64 => "uint64"
  | .slice e => "[]" ++ typeString e

/-- The `_nameToType` table built by `init` (the float entries are outside the
universe). -/
def primNameToType (s : GoStr) : Option GoType :=
  if s = gs "string" then some (.prim .kstring)
  else if s = gs "int" then some (.prim .kint)
  else if s = gs "int8" then some (.prim .kint8)
  else if s = gs "int16" then some (.prim .kint16)
  else if s = gs "int32" then some (.prim .kint32)
  else if s = gs "int64" then some (.prim .kint64)
  else if s = gs "uint" then some (.prim .kuint)
  else if s = gs "uint8" then some (.prim .kuint8)
  else if s = gs "uint16" then some (.prim .kuint16)
  else if s = gs "uint32" then some (.prim .kuint32)
  else if s = gs "uint64" then some (.prim .kuint64)
  else none

/-- `nameToType` (fuel-based; each `[]` step strips two bytes, so the fuel
never runs out at the entry point).  The source's `recurse` parameter is never
read there and is reproduced as a dead parameter. -/
def nameToTypeAux : Nat → GoStr → Option GoType
  | 0, _ => none
  | fuel + 1, s =>
    if hasPre (gs "[]") s then (nameToTypeAux fuel (s.drop 2)).map .slice
    else primNameToType s

def nameToType (s : GoStr) (_recurse : Bool) : Option GoType :=
  nameToTypeAux (s.length + 1) s

/-- `reflect.StructTag.Lookup`'s scan of a quoted value: the raw bytes after
the opening quote up to the unescaped closing quote (a backslash skips the
following byte), plus the remainder after the closing quote. -/
def scanQuoted : GoStr → Option (GoStr × GoStr)
  | [] => none
  | '"' :: rest => some ([], rest)
  | '\\' :: c :: rest => (scanQuoted rest).map fun p => ('\\' :: c :: p.1, p.2)
  | '\\' :: [] => none
  | c :: rest => (scanQuoted rest).map fun p => (c :: p.1, p.2)

/-- `strconv.Unquote` of a tag value, modelled for escape-free text: a value
containing a backslash or a newline makes the unquote fail (Go would process
escapes; no tag in scope contains any). -/
def unquoteTag (raw : GoStr) : Option GoStr :=
  if raw.contains '\\' || raw.contains '\n' then none else some raw

/-- `reflect.StructTag.Lookup`/`Get`: iterate space-separated
`name:"value"` groups, returning the unquoted value of `key` ("" when absent
or malformed).  Fuel-based: every iteration consumes at least one byte. -/
def tagGetAux : Nat → GoStr → GoStr → GoStr
  | 0, _, _ => []
  | fuel + 1, tag, key =>
    let tag1 := tag.dropWhile (· = ' ')
    let nameChars := tag1.takeWhile fun c =>
      ' ' < c && c ≠ ':' && c ≠ '"' && c.toNat ≠ 127
    if nameChars = [] then []
    else
      match tag1.drop nameChars.length with
      | ':' :: '"' :: valRest =>
        match scanQuoted valRest with
        | none => []
        | some (raw, after) =>
          if nameChars = key then (unquoteTag raw).getD []
          else tagGetAux fuel after key
      | _ => []

def tagGet (tag key : GoStr) : GoStr := tagGetAux (tag.length + 1) tag key

/-- One schema entry (`type2fields`' `structfield`; the source's `Type` field
is called `Typ` because `Type` is a Lean keyword). -/
structure structfield where
  FieldName : GoStr
  KeyName : GoStr
  OmitEmpty : Bool
  Typ : GoType
deriving DecidableEq, Repr

/-- A struct field as `reflect` presents it: name, `PkgPath` (non-empty for
unexported fields), raw tag text and type. -/
structure GoField where
  name : GoStr
  pkgPath : GoStr
  tag : GoStr
  typ : GoType
deriving DecidableEq, Repr

/-- A struct type is its declared field list. -/
abbrev StructType := List GoField

/-- Result of an engine call: `crash` models a Go runtime panic, `fails` a
returned error. -/
inductive Outcome (α : Type) where
  | crash
  | fails (msg : String)
  | ok (val : α)
deriving Repr

instance [DecidableEq α] : DecidableEq (Outcome α) := fun a b =>
  match a, b with
  | .crash, .crash => .isTrue rfl
  | .crash, .fails _ => .isFalse (by simp)
  | .crash, .ok _ => .isFalse (by simp)
  | .fails _, .crash => .isFalse (by simp)
  | .fails e, .fails e2 =>
    if h : e = e2 then .isTrue (by rw [h]) else .isFalse (by simp [h])
  | .fails _, .ok _ => .isFalse (by simp)
  | .ok _, .crash => .isFalse (by simp)
  | .ok _, .fails _ => .isFalse (by simp)
  | .ok v, .ok v2 =>
    if h : v = v2 then .isTrue (by rw [h]) else .isFalse (by simp [h])

/-- The classifier check and entry construction shared by every field
(`urlenc.go` lines 303-314).  A `none` field type is the nil `reflect.Type`
produced by an unrecognized pretend-type name: the source's error check there
tests an `err` variable that is never assigned, so the nil type flows into
`isSupportedType`, whose method call on a nil interface panics — `crash`. -/
def buildField (f : GoField) (keyname : GoStr) (omitempty : Bool) :
    Option GoType → Outcome (Option structfield)
  | none => .crash
  | some ft =>
    if !isSupportedType ft true then
      .fails ("urlenc: unsupported type on struct field " ++ gsStr f.name ++ ": " ++
        typeString f.typ)
    else .ok (some ⟨f.name, keyname, omitempty, ft⟩)

/-- Tag handling for one field (`urlenc.go` lines 242-314).  `.ok none` means
the field is skipped.  Note two source quirks reproduced exactly: (1) a field
with no tag at all is included under its own name; (2) when a tag exists, the
`keyname = f.Name` fallback for an empty tag value is unconditionally
overwritten by `keyname = TrimSpace(parts[0])`, so an empty annotation yields
an empty key. -/
def parseField (f : GoField) : Outcome (Option structfield) :=
  if f.tag = [] then buildField f f.name false (some f.typ)
  else
    let possibletags := wssplit f.tag
    let tagname : GoStr :=
      if possibletags.any fun tg => hasPre (gs "urlenc:") tg then gs "urlenc"
      else if possibletags.any fun tg => hasPre (gs "json:") tg then gs "json"
      else []
    let st := tagGet f.tag tagname
    if st = gs "-" then .ok none
    else
      let parts := splitN st ',' 3
      let fieldtype : Option GoType :=
        if parts.length > 2 then nameToType (trimSpace (parts.getD 2 [])) false
        else some f.typ
      let omitempty : Bool :=
        parts.length > 1 && trimSpace (parts.getD 1 []) = gs "omitempty"
      let keyname := trimSpace (parts.getD 0 [])
      buildField f keyname omitempty fieldtype

/-- `type2fields.getStructFields`, minus the memoization (the cache stores the
result of this pure function per type; locking is out of scope).  Unexported
fields are skipped up front; the first classifier failure aborts with its
error; an unrecognized pretend-type aborts with a panic. -/
def getStructFields : StructType → Outcome (List structfield)
  | [] => .ok []
  | f :: rest =>
    if f.pkgPath ≠ [] then getStructFields rest
    else
      match parseField f with
      | .crash => .crash
      | .fails e => .fails e
      | .ok none => getStructFields rest
      | .ok (some sf) =>
        match getStructFields rest with
        | .crash => .crash
        | .fails e => .fails e
        | .ok sfs => .ok (sf :: sfs)

/-! ## The encoder -/

/-- A record value: the assignment of a value to each field name
(`FieldByName`).  The schema only ever reads and writes names declared in the
struct type. -/
abbrev Record := GoStr → GoValue

/-- `fv.Set(sv)` through `FieldByName`. -/
def setField (r : Record) (n : GoStr) (v : GoValue) : Record :=
  fun m => if m = n then v else r m

/-- The declared type of a named field. -/
def lookupFieldType (st : StructType) (n : GoStr) : Option GoType :=
  (st.find? fun f => f.name == n).map GoField.typ

/-- The zero value of a struct type, field by field (a fresh `var v2 T`). -/
def zeroRecord (st : StructType) : Record := fun n =>
  match lookupFieldType st n with
  | some t => zeroOf t
  | none => .vstr []

/-- The omit-empty test of `marshalStruct` (lines 429-456), on the value's own
shape: a slice is empty when nil (the `IsNil` branch), a string or integer
when it equals its type's zero value (the default branch; the `Struct` branch
is outside the universe). -/
def isEmptyValue : GoValue → Bool
  | .vslice isNil _ _ => isNil
  | .vstr s => s.isEmpty
  | .vint _ n => n == 0

/-- The element loop of `addValue`: convert and add each element in order,
stopping at the first conversion error. -/
def addElems (name : GoStr) : Values → List GoValue → Outcome Values
  | uv, [] => .ok uv
  | uv, e :: es =>
    match convertToString e with
    | .error msg => .fails msg
    | .ok s => addElems name (valuesAdd uv name s) es

/-- `addValue(uv, name, fv, ft)`: scalar registered types add one converted
string, everything else is iterated as a sequence — on a non-slice value that
`fv.Len()` call panics.  (The `Valuer` extraction hook, checked first in the
source, is outside the universe.) -/
def addValue (uv : Values) (name : GoStr) (fv : GoValue) (ft : GoType) :
    Outcome Values :=
  if isStringOrNumeric ft then
    match convertToString fv with
    | .error e => .fails e
    | .ok s => .ok (valuesAdd uv name s)
  else
    match fv with
    | .vslice _ _ elems => addElems name uv elems
    | _ => .crash

/-- The field loop of `marshalStruct` (lines 425-461). -/
def marshalStructFields (r : Record) : Values → List structfield → Outcome Values
  | uv, [] => .ok uv
  | uv, f :: fs =>
    let fv := r f.FieldName
    if f.OmitEmpty && isEmptyValue fv then marshalStructFields r uv fs
    else
      match addValue uv f.KeyName fv f.Typ with
      | .crash => .crash
      | .fails e => .fails e
      | .ok uv2 => marshalStructFields r uv2 fs

/-- The multi-map `marshalStruct` builds before serializing. -/
def marshalStructValues (st : StructType) (r : Record) : Outcome Values :=
  match getStructFields st with
  | .crash => .crash
  | .fails e => .fails e
  | .ok fields => marshalStructFields r [] fields

/-- `marshalStruct`: schema, field loop, `uv.Encode()`. -/
def marshalStruct (st : StructType) (r : Record) : Outcome GoStr :=
  match marshalStructValues st r with
  | .crash => .crash
  | .fails e => .fails e
  | .ok uv => .ok (encodeValues uv)

/-- A string-keyed map value (`map[string]interface{}`); association order
stands for Go's unordered iteration, which the sorted `Encode` and the
per-distinct-key decode make irrelevant. -/
abbrev MapRec := List (GoStr × GoValue)

/-- The entry loop of `marshalMap` (lines 400-414): classify every entry value
(a pointer/interface unwrap, outside the universe, comes first in the source)
and add it under its key with its dynamic type. -/
def marshalMapEntries : Values → MapRec → Outcome Values
  | uv, [] => .ok uv
  | uv, (k, fv) :: rest =>
    if !isSupportedType (typeOf fv) true then
      .fails ("urlenc: unsupported type on map element " ++ gsStr k ++ " (" ++
        typeString (typeOf fv) ++ ")")
    else
      match addValue uv k fv (typeOf fv) with
      | .crash => .crash
      | .fails e => .fails e
      | .ok uv2 => marshalMapEntries uv2 rest

/-- The multi-map `marshalMap` builds. -/
def marshalMapValues (m : MapRec) : Outcome Values := marshalMapEntries [] m

/-- `marshalMap`. -/
def marshalMap (m : MapRec) : Outcome GoStr :=
  match marshalMapValues m with
  | .crash => .crash
  | .fails e => .fails e
  | .ok uv => .ok (encodeValues uv)

/-- A value passed to `Marshal`: either one whose type implements the
`Marshaler` capability (carrying the result its `MarshalURL` would return,
plus the underlying struct shape the schema engine would otherwise see), or a
plain struct, or a string-keyed map.  Non-string-keyed maps and other shapes,
which `Marshal` rejects with shape errors, are outside the universe. -/
inductive TopValue where
  | marshaler (out : Except String GoStr) (st : StructType) (r : Record)
  | strct (st : StructType) (r : Record)
  | smap (m : MapRec)

/-- `Marshal` (lines 335-363): the `Marshaler` check comes first and returns
the capability's result unchanged; otherwise dispatch on the (unwrapped)
shape. -/
def Marshal : TopValue → Outcome GoStr
  | .marshaler out _ _ =>
    match out with
    | .ok bs => .ok bs
    | .error e => .fails e
  | .strct st r => marshalStruct st r
  | .smap m => marshalMap m

/-! ## The decoder -/

/-- Result of a struct decode: `crash` models a panic; `done r err` is the
final state of the target record together with the returned error, so partial
mutation before an error is observable, as it is in Go. -/
inductive DecRes where
  | crash
  | done (r : Record) (err : Option String)

/-- The element loop of the slice branch (lines 561-569): convert each value
in input order, aborting at the first conversion error. -/
def convertElems (et : GoType) : List GoStr → Except String (List GoValue)
  | [] => .ok []
  | v :: vs =>
    match convertFromString et v with
    | .error e => .error e
    | .ok cv => (fun es => cv :: es) <$> convertElems et vs

/-- The value `unmarshalStruct` builds for one schema field from the value
list of its key (lines 555-581): a fresh slice of converted elements for a
slice-typed entry (`reflect.Array` is outside the universe); for a scalar
entry, the redundant registered-type check and then the conversion of
`values[0]` only. -/
def svFor (f : structfield) (values : List GoStr) : Except String GoValue :=
  match f.Typ with
  | .slice et =>
    match convertElems et values with
    | .error e => .error e
    | .ok es => .ok (.vslice false et es)
  | .prim _ =>
    if !isStringOrNumeric f.Typ then
      .error ("urlenc.Unmarshal: unsupported type for field " ++ gsStr f.FieldName)
    else convertFromString f.Typ (values.headD [])

/-- The field loop of `unmarshalStruct` (lines 543-594): skip a field whose
key has no values; build the field's value via `svFor`; then assign via
`fv.Set`, which panics unless the built value's type matches the field's
declared type.  (The `Setter` injection hook and the pointer/interface unwrap
are outside the universe.) -/
def decodeFields (q : Values) (st : StructType) :
    List structfield → Record → DecRes
  | [], r => .done r none
  | f :: fs, r =>
    match (valuesGet q f.KeyName).getD [] with
    | [] => decodeFields q st fs r
    | v0 :: vrest =>
      match svFor f (v0 :: vrest) with
      | .error e => .done r (some e)
      | .ok sv =>
        match lookupFieldType st f.FieldName with
        | none => .crash
        | some dt =>
          if typeOf sv ≠ dt then .crash
          else decodeFields q st fs (setField r f.FieldName sv)

/-- `unmarshalStruct` (lines 532-596): schema, parse, field loop. -/
def unmarshalStruct (st : StructType) (data : GoStr) (r : Record) : DecRes :=
  match getStructFields st with
  | .crash => .crash
  | .fails e => .done r (some e)
  | .ok fields =>
    match parseQuery data with
    | .error e => .done r (some e)
    | .ok q => decodeFields q st fields r

/-- `rv.SetMapIndex` on a string-keyed map. -/
def mapSet (m : MapRec) (k : GoStr) (v : GoValue) : MapRec :=
  match m with
  | [] => [(k, v)]
  | (k0, v0) :: rest =>
    if k0 = k then (k0, v) :: rest else (k0, v0) :: mapSet rest k v

/-- Map lookup. -/
def mapGet (m : MapRec) (k : GoStr) : Option GoValue :=
  match m with
  | [] => none
  | (k0, v0) :: rest => if k0 = k then some v0 else mapGet rest k

/-- What `unmarshalMap` stores for one parsed key (lines 504-510): the single
string when exactly one value was present, otherwise the whole `[]string`. -/
def mapDecodedValue (vs : List GoStr) : GoValue :=
  match vs with
  | [v] => .vstr v
  | _ => .vslice false (.prim .kstring) (vs.map .vstr)

/-- `unmarshalMap` (lines 498-513): parse, then store every key's decoded
value (Go's map iteration order is irrelevant because parsed keys are
distinct; the model iterates in first-appearance order). -/
def unmarshalMap (data : GoStr) (m : MapRec) : Except String MapRec :=
  match parseQuery data with
  | .error e => .error e
  | .ok q => .ok (q.foldl (fun acc kv => mapSet acc kv.1 (mapDecodedValue kv.2)) m)

/-- A target passed to `Unmarshal`: one implementing the `Unmarshaler`
capability (carrying the error its `UnmarshalURL` would return), or a mutable
struct, or a string-keyed map.  Non-pointer targets and other shapes, which
`Unmarshal` rejects with shape errors, are outside the universe. -/
inductive Target where
  | unmarshaler (res : Option String)
  | strct (st : StructType) (r : Record)
  | smap (m : MapRec)

/-- `Unmarshal` (lines 467-496): the `Unmarshaler` check comes first and
returns the capability's result; otherwise dispatch on the pointed-to
shape. -/
def Unmarshal (data : GoStr) : Target → Outcome Target
  | .unmarshaler res =>
    match res with
    | none => .ok (.unmarshaler res)
    | some e => .fails e
  | .strct st r =>
    match unmarshalStruct st data r with
    | .crash => .crash
    | .done r2 none => .ok (.strct st r2)
    | .done _ (some e) => .fails e
  | .smap m =>
    match unmarshalMap data m with
    | .error e => .fails e
    | .ok m2 => .ok (.smap m2)

/-! ## Parsing the encoder's output -/

/-- The `(key, value)` pairs `Encode` lays out, in output order. -/
def pairsOf (uv : Values) : List (GoStr × GoStr) :=
  (List.insertionSort (· ≤ ·) (uv.map Prod.fst)).flatMap fun k =>
    ((valuesGet uv k).getD []).map fun v => (k, v)

/-- Well-formedness of a multi-map as the engine builds it: duplicate-free
keys, byte-clean keys and values, no empty value list. -/
def ValuesWF (uv : Values) : Prop :=
  (uv.map Prod.fst).Nodup ∧
    (∀ p ∈ uv, ByteWF p.1 ∧ p.2 ≠ [] ∧ ∀ v ∈ p.2, ByteWF v)

/-- Adding all of one key's values in order. -/
def addAll (m : Values) (k : GoStr) (vs : List GoStr) : Values :=
  vs.foldl (fun acc v => valuesAdd acc k v) m

/-- Folding parse pairs into a map. -/
def pairsFold (ps : List (GoStr × GoStr)) (m : Values) : Values :=
  ps.foldl (fun acc p => valuesAdd acc p.1 p.2) m

/-! ## Lemmas about the encoder's field loop -/

/-- Pure view of the element conversion `addElems` performs. -/
def convertAll : List GoValue → Except String (List GoStr)
  | [] => .ok []
  | e :: es =>
    match convertToString e with
    | .error msg => .error msg
    | .ok s => (fun ss => s :: ss) <$> convertAll es

/-- What one schema field contributes to the multi-map when encoding
succeeds: nothing when omitted, one converted string for a scalar registered
type, the converted elements for a slice one. -/
def contribOk (r : Record) (f : structfield) (ss : List GoStr) : Prop :=
  (f.OmitEmpty && isEmptyValue (r f.FieldName)) = true ∧ ss = [] ∨
  (f.OmitEmpty && isEmptyValue (r f.FieldName)) = false ∧
    (isStringOrNumeric f.Typ = true ∧
        (∃ s, convertToString (r f.FieldName) = .ok s ∧ ss = [s]) ∨
      isStringOrNumeric f.Typ = false ∧
        (∃ b et elems, r f.FieldName = .vslice b et elems ∧
          convertAll elems = .ok ss))

/-- Per-entry well-formedness (the second half of `ValuesWF`). -/
def EntriesWF (uv : Values) : Prop :=
  ∀ p ∈ uv, ByteWF p.1 ∧ p.2 ≠ [] ∧ ∀ v ∈ p.2, ByteWF v

/-! ## The contribution of one field, and the master encoding lemma -/

/-- The strings one schema field adds to the multi-map when encoding a
well-typed record (empty when the omit-empty rule skips the field). -/
def contribOf (r : Record) (f : structfield) : List GoStr :=
  if f.OmitEmpty && isEmptyValue (r f.FieldName) then []
  else if isStringOrNumeric f.Typ then
    match convertToString (r f.FieldName) with
    | .ok s => [s]
    | .error _ => []
  else
    match r f.FieldName with
    | .vslice _ _ elems =>
      match convertAll elems with
      | .ok ss => ss
      | .error _ => []
    | _ => []

/-- The multi-map a well-typed record marshals to. -/
def uvOf (fields : List structfield) (r : Record) : Values :=
  fields.foldl (fun m f => addAll m f.KeyName (contribOf r f)) []

instance {e a : Type} [DecidableEq e] [DecidableEq a] :
    DecidableEq (Except e a) := fun x y =>
  match x, y with
  | .error e1, .error e2 =>
    if h : e1 = e2 then .isTrue (by rw [h]) else .isFalse (by simp [h])
  | .error _, .ok _ => .isFalse (by simp)
  | .ok _, .error _ => .isFalse (by simp)
  | .ok v, .ok v2 =>
    if h : v = v2 then .isTrue (by rw [h]) else .isFalse (by simp [h])

/-- The `Foo` struct of the repository's tests, restricted to the embedded
universe (string, int and []string fields). -/
def fooT : StructType :=
  [⟨gs "Bar", [], gs "urlenc:\"bar\"", .prim .kstring⟩,
   ⟨gs "Baz", [], gs "urlenc:\"baz\"", .prim .kint⟩,
   ⟨gs "Qux", [], gs "urlenc:\"qux\"", .slice (.prim .kstring)⟩]

/-- The schema `fooT` builds. -/
def fooFields : List structfield :=
  [⟨gs "Bar", gs "bar", false, .prim .kstring⟩,
   ⟨gs "Baz", gs "baz", false, .prim .kint⟩,
   ⟨gs "Qux", gs "qux", false, .slice (.prim .kstring)⟩]

/-- A concrete `Foo` value. -/
def fooR : Record := fun n =>
  if n = gs "Bar" then .vstr (gs "one")
  else if n = gs "Baz" then .vint .kint 2
  else if n = gs "Qux" then
    .vslice false (.prim .kstring) [.vstr (gs "three"), .vstr (gs "4")]
  else .vstr []

/-- A one-field struct with a `[]int` field, for conversion-failure tests. -/
def intSliceT : StructType :=
  [⟨gs "Xs", [], gs "urlenc:\"xs\"", .slice (.prim .kint)⟩]

/-- A struct type exposing two string fields under the same key `k`. -/
def dupT : StructType :=
  [⟨gs "A", [], gs "urlenc:\"k\"", .prim .kstring⟩,
   ⟨gs "B", [], gs "urlenc:\"k\"", .prim .kstring⟩]

/-- The record A = "x", B = "y" of type `dupT`. -/
def dupR : Record := fun n =>
  if n = gs "B" then .vstr (gs "y") else .vstr (gs "x")

/-! ## Theorems -/

/-! ## Lemmas about the multi-map -/

theorem valuesGet_add_self (uv : Values) (k v : GoStr) :
    valuesGet (valuesAdd uv k v) k = some ((valuesGet uv k).getD [] ++ [v]) := by
  induction uv with
  | nil => simp [valuesAdd, valuesGet]
  | cons hd rest ih =>
    obtain ⟨k0, vs⟩ := hd
    by_cases hk : k0 = k
    · subst hk; simp [valuesAdd, valuesGet]
    · simp [valuesAdd, valuesGet, hk, ih]

theorem valuesGet_add_other (uv : Values) (k k2 v : GoStr) (h : k ≠ k2) :
    valuesGet (valuesAdd uv k v) k2 = valuesGet uv k2 := by
  induction uv with
  | nil => simp [valuesAdd, valuesGet, h]
  | cons hd rest ih =>
    obtain ⟨k0, vs⟩ := hd
    by_cases hk : k0 = k
    · subst hk
      simp [valuesAdd, valuesGet, h]
    · by_cases hk2 : k0 = k2
      · subst hk2
        simp [valuesAdd, valuesGet, hk]
      · simp [valuesAdd, valuesGet, hk, hk2, ih]

theorem valuesAdd_keys (uv : Values) (k v : GoStr) :
    (valuesAdd uv k v).map Prod.fst =
      if k ∈ uv.map Prod.fst then uv.map Prod.fst else uv.map Prod.fst ++ [k] := by
  induction uv with
  | nil => simp [valuesAdd]
  | cons hd rest ih =>
    obtain ⟨k0, vs⟩ := hd
    by_cases hk : k0 = k
    · subst hk; simp [valuesAdd]
    · by_cases hm : k ∈ rest.map Prod.fst <;>
        simp [valuesAdd, hk, ih, hm, Ne.symm hk]

theorem valuesAdd_keys_nodup (uv : Values) (k v : GoStr)
    (h : (uv.map Prod.fst).Nodup) : ((valuesAdd uv k v).map Prod.fst).Nodup := by
  rw [valuesAdd_keys]
  by_cases hm : k ∈ uv.map Prod.fst
  · simpa [hm]
  · rw [if_neg hm]
    refine List.Nodup.append h (List.nodup_singleton k) ?_
    intro a ha hb
    simp only [List.mem_singleton] at hb
    exact hm (hb ▸ ha)

theorem valuesGet_none_of_not_mem (uv : Values) (k : GoStr)
    (h : k ∉ uv.map Prod.fst) : valuesGet uv k = none := by
  induction uv with
  | nil => rfl
  | cons hd rest ih =>
    obtain ⟨k0, vs⟩ := hd
    simp only [List.map_cons, List.mem_cons] at h
    push_neg at h
    simp [valuesGet, Ne.symm h.1, ih h.2]

/-! ## Lemmas about splitting and joining -/

theorem splitOnChar_not_mem (c : Char) (s : GoStr) (h : c ∉ s) :
    splitOnChar c s = [s] := by
  induction s with
  | nil => rfl
  | cons x xs ih =>
    simp only [List.mem_cons] at h
    push_neg at h
    simp [splitOnChar, ih h.2, Ne.symm h.1]

theorem splitOnChar_append_cons (c : Char) (s t : GoStr) (h : c ∉ s) :
    splitOnChar c (s ++ c :: t) = s :: splitOnChar c t := by
  induction s with
  | nil => simp [splitOnChar]
  | cons x xs ih =>
    simp only [List.mem_cons] at h
    push_neg at h
    rw [List.cons_append, splitOnChar, if_neg (Ne.symm h.1), ih h.2]

theorem joinAmp_cons2 (s s2 : GoStr) (ss : List GoStr) :
    joinAmp (s :: s2 :: ss) = s ++ '&' :: joinAmp (s2 :: ss) := rfl

theorem splitOnChar_joinAmp (segs : List GoStr) (hne : segs ≠ [])
    (h : ∀ seg ∈ segs, '&' ∉ seg) :
    splitOnChar '&' (joinAmp segs) = segs := by
  induction segs with
  | nil => exact absurd rfl hne
  | cons s ss ih =>
    cases ss with
    | nil => simpa [joinAmp] using splitOnChar_not_mem '&' s (h s (by simp))
    | cons s2 ss2 =>
      rw [joinAmp_cons2, splitOnChar_append_cons '&' s _ (h s (by simp))]
      rw [ih (List.cons_ne_nil s2 ss2) (fun seg hs => h seg (List.mem_cons_of_mem s hs))]

theorem cutChar_append (c : Char) (a b : GoStr) (h : c ∉ a) :
    cutChar c (a ++ c :: b) = (a, b) := by
  induction a with
  | nil => simp [cutChar]
  | cons x xs ih =>
    simp only [List.mem_cons] at h
    push_neg at h
    rw [List.cons_append, cutChar, if_neg (Ne.symm h.1)]
    simp [ih h.2]

/-! ## Lemmas about escaping -/

theorem hexDigitUpper_facts : ∀ d < 16, unhex (hexDigitUpper d) = some d ∧
    hexDigitUpper d ≠ '&' ∧ hexDigitUpper d ≠ '=' ∧ hexDigitUpper d ≠ ';' := by
  decide

theorem mem_escapeByte_ne (c x : Char) (hx : x ∈ escapeByte c) :
    x ≠ '&' ∧ x ≠ '=' ∧ x ≠ ';' := by
  unfold escapeByte at hx
  by_cases hu : isUnreserved c
  · rw [if_pos hu] at hx
    simp only [List.mem_singleton] at hx
    subst hx
    refine ⟨?_, ?_, ?_⟩ <;> (rintro rfl; exact absurd hu (by decide))
  · by_cases hsp : c = ' '
    · rw [if_neg hu, if_pos hsp] at hx
      simp only [List.mem_singleton] at hx
      subst hx
      refine ⟨by decide, by decide, by decide⟩
    · rw [if_neg hu, if_neg hsp] at hx
      have h1 := hexDigitUpper_facts (c.toNat / 16 % 16) (by omega)
      have h2 := hexDigitUpper_facts (c.toNat % 16) (by omega)
      simp only [List.mem_cons, List.not_mem_nil, or_false] at hx
      rcases hx with rfl | rfl | rfl
      · exact ⟨by decide, by decide, by decide⟩
      · exact ⟨h1.2.1, h1.2.2.1, h1.2.2.2⟩
      · exact ⟨h2.2.1, h2.2.2.1, h2.2.2.2⟩

theorem mem_queryEscape_ne (s : GoStr) (x : Char) (hx : x ∈ queryEscape s) :
    x ≠ '&' ∧ x ≠ '=' ∧ x ≠ ';' := by
  unfold queryEscape at hx
  simp only [List.mem_flatten, List.mem_map] at hx
  obtain ⟨l, ⟨c, _, hcl⟩, hxl⟩ := hx
  exact mem_escapeByte_ne c x (hcl ▸ hxl)

theorem queryUnescape_cons_default (c : Char) (rest : GoStr) (h1 : c ≠ '%')
    (h2 : c ≠ '+') :
    queryUnescape (c :: rest) = (fun t => c :: t) <$> queryUnescape rest :=
  queryUnescape.eq_5 c rest (fun _ _ _ hc _ => h1 hc) h1 h2

theorem queryUnescape_plus (rest : GoStr) :
    queryUnescape ('+' :: rest) = (fun t => ' ' :: t) <$> queryUnescape rest :=
  queryUnescape.eq_4 rest

theorem queryUnescape_pct (c : Char) (hc : c.toNat < 256) (rest : GoStr) :
    queryUnescape ('%' :: hexDigitUpper (c.toNat / 16 % 16) ::
        hexDigitUpper (c.toNat % 16) :: rest) =
      (fun t => c :: t) <$> queryUnescape rest := by
  have h1 := (hexDigitUpper_facts (c.toNat / 16 % 16) (by omega)).1
  have h2 := (hexDigitUpper_facts (c.toNat % 16) (by omega)).1
  have hn : 16 * (c.toNat / 16 % 16) + c.toNat % 16 = c.toNat := by omega
  rw [queryUnescape.eq_2, h1, h2]
  simp only [hn, Char.ofNat_toNat]

theorem queryEscape_cons (c : Char) (cs : GoStr) :
    queryEscape (c :: cs) = escapeByte c ++ queryEscape cs := by
  simp [queryEscape]

theorem queryUnescape_escapeByte_append (c : Char) (hc : c.toNat < 256)
    (rest : GoStr) :
    queryUnescape (escapeByte c ++ rest) = (fun t => c :: t) <$> queryUnescape rest := by
  unfold escapeByte
  by_cases hu : isUnreserved c
  · rw [if_pos hu]
    simp only [List.cons_append, List.nil_append]
    have h1 : c ≠ '%' := by rintro rfl; exact absurd hu (by decide)
    have h2 : c ≠ '+' := by rintro rfl; exact absurd hu (by decide)
    exact queryUnescape_cons_default c rest h1 h2
  · by_cases hsp : c = ' '
    · subst hsp
      rw [if_neg hu, if_pos rfl]
      simpa using queryUnescape_plus rest
    · rw [if_neg hu, if_neg hsp]
      simpa using queryUnescape_pct c hc rest

theorem queryUnescape_queryEscape (s : GoStr) (h : ByteWF s) :
    queryUnescape (queryEscape s) = .ok s := by
  induction s with
  | nil => rfl
  | cons c cs ih =>
    rw [queryEscape_cons, queryUnescape_escapeByte_append c (h c (by simp)),
      ih (fun x hx => h x (by simp [hx]))]
    rfl

theorem encodeValues_eq_join (uv : Values) :
    encodeValues uv = joinAmp ((pairsOf uv).map fun p =>
      queryEscape p.1 ++ '=' :: queryEscape p.2) := by
  unfold encodeValues pairsOf
  rw [List.map_flatMap]
  simp [List.map_map, Function.comp_def]

theorem valuesGet_mem (uv : Values) (k : GoStr) (vs : List GoStr)
    (h : valuesGet uv k = some vs) : (k, vs) ∈ uv := by
  induction uv with
  | nil => cases h
  | cons hd rest ih =>
    obtain ⟨k0, vs0⟩ := hd
    by_cases hk : k0 = k
    · subst hk
      simp [valuesGet] at h
      simp [h]
    · simp [valuesGet, hk] at h
      exact List.mem_cons_of_mem _ (ih h)

theorem pairsOf_byteWF (uv : Values) (hwf : ValuesWF uv) :
    ∀ p ∈ pairsOf uv, ByteWF p.1 ∧ ByteWF p.2 := by
  intro p hp
  unfold pairsOf at hp
  rw [List.mem_flatMap] at hp
  obtain ⟨k, hk, hpk⟩ := hp
  rw [List.mem_map] at hpk
  obtain ⟨v, hv, rfl⟩ := hpk
  have hkmem : k ∈ uv.map Prod.fst :=
    ((List.perm_insertionSort (· ≤ ·) (uv.map Prod.fst)).mem_iff).1 hk
  rcases hvs : valuesGet uv k with _ | vs
  · rw [hvs] at hv; cases hv
  · have hmem := valuesGet_mem uv k vs hvs
    have := hwf.2 (k, vs) hmem
    rw [hvs] at hv
    exact ⟨this.1, this.2.2 v hv⟩

/-- One good segment through one parse step. -/
theorem parseQueryStep_seg (m : Values) (k v : GoStr) (hk : ByteWF k)
    (hv : ByteWF v) :
    parseQueryStep (m, none) (queryEscape k ++ '=' :: queryEscape v) =
      (valuesAdd m k v, none) := by
  have hsemi : ¬(queryEscape k ++ '=' :: queryEscape v).contains ';' = true := by
    intro hc
    rw [List.elem_iff] at hc
    rcases List.mem_append.1 hc with h | h
    · exact (mem_queryEscape_ne k ';' h).2.2 rfl
    · rw [List.mem_cons] at h
      rcases h with h | h
      · exact absurd h (by decide)
      · exact (mem_queryEscape_ne v ';' h).2.2 rfl
  have heq : ¬(queryEscape k ++ '=' :: queryEscape v) = [] := by simp
  have hcut : cutChar '=' (queryEscape k ++ '=' :: queryEscape v) =
      (queryEscape k, queryEscape v) :=
    cutChar_append '=' _ _ (fun h => (mem_queryEscape_ne k '=' h).2.1 rfl)
  unfold parseQueryStep
  rw [if_neg hsemi, if_neg heq, hcut]
  simp only
  rw [queryUnescape_queryEscape k hk, queryUnescape_queryEscape v hv]

theorem foldl_parseQueryStep_segs (ps : List (GoStr × GoStr)) (m : Values)
    (h : ∀ p ∈ ps, ByteWF p.1 ∧ ByteWF p.2) :
    (ps.map fun p => queryEscape p.1 ++ '=' :: queryEscape p.2).foldl
        parseQueryStep (m, none) = (pairsFold ps m, none) := by
  induction ps generalizing m with
  | nil => rfl
  | cons p rest ih =>
    obtain ⟨k, v⟩ := p
    have hp := h (k, v) (by simp)
    rw [List.map_cons, List.foldl_cons, parseQueryStep_seg m k v hp.1 hp.2]
    exact ih (valuesAdd m k v) (fun q hq => h q (List.mem_cons_of_mem _ hq))

theorem parseQuery_encodeValues (uv : Values) (hwf : ValuesWF uv) :
    parseQuery (encodeValues uv) = .ok (pairsFold (pairsOf uv) []) := by
  have hbw := pairsOf_byteWF uv hwf
  rw [encodeValues_eq_join]
  rcases hps : pairsOf uv with _ | ⟨p, ps⟩
  · simp [joinAmp, parseQuery, splitOnChar, parseQueryStep, pairsFold]
  · rw [← hps]
    have hsegne : (pairsOf uv).map
        (fun p => queryEscape p.1 ++ '=' :: queryEscape p.2) ≠ [] := by
      simp [hps]
    unfold parseQuery
    rw [splitOnChar_joinAmp _ hsegne ?hamp]
    case hamp =>
      intro seg hseg hin
      rw [List.mem_map] at hseg
      obtain ⟨q, _, rfl⟩ := hseg
      rcases List.mem_append.1 hin with h | h
      · exact (mem_queryEscape_ne q.1 '&' h).1 rfl
      · rw [List.mem_cons] at h
        rcases h with h | h
        · exact absurd h (by decide)
        · exact (mem_queryEscape_ne q.2 '&' h).1 rfl
    rw [foldl_parseQueryStep_segs _ [] hbw]

theorem addAll_cons (m : Values) (k v : GoStr) (vs : List GoStr) :
    addAll m k (v :: vs) = addAll (valuesAdd m k v) k vs := rfl

theorem valuesGet_addAll_of_some (m : Values) (k : GoStr) (vs ws : List GoStr)
    (h : valuesGet m k = some ws) :
    valuesGet (addAll m k vs) k = some (ws ++ vs) := by
  induction vs generalizing m ws with
  | nil => simpa [addAll]
  | cons v rest ih =>
    rw [addAll_cons]
    have hadd := valuesGet_add_self m k v
    rw [h] at hadd
    rw [ih (valuesAdd m k v) (ws ++ [v]) (by simpa using hadd)]
    simp

theorem valuesGet_addAll_self (m : Values) (k : GoStr) (vs : List GoStr)
    (h : vs ≠ []) :
    valuesGet (addAll m k vs) k = some ((valuesGet m k).getD [] ++ vs) := by
  cases vs with
  | nil => exact absurd rfl h
  | cons v rest =>
    rw [addAll_cons]
    have hadd := valuesGet_add_self m k v
    rw [valuesGet_addAll_of_some _ _ _ _ hadd]
    simp

theorem valuesGet_addAll_other (m : Values) (k k0 : GoStr) (vs : List GoStr)
    (h : k ≠ k0) : valuesGet (addAll m k vs) k0 = valuesGet m k0 := by
  induction vs generalizing m with
  | nil => rfl
  | cons v rest ih =>
    rw [addAll_cons, ih (valuesAdd m k v), valuesGet_add_other m k k0 v h]

theorem pairsFold_block (k : GoStr) (vs : List GoStr) (m : Values) :
    pairsFold (vs.map fun v => (k, v)) m = addAll m k vs := by
  unfold pairsFold addAll
  rw [List.foldl_map]

theorem pairsFold_append (ps qs : List (GoStr × GoStr)) (m : Values) :
    pairsFold (ps ++ qs) m = pairsFold qs (pairsFold ps m) := by
  unfold pairsFold
  rw [List.foldl_append]

theorem valuesGet_pairsFold_blocks (ks : List GoStr) (V : GoStr → List GoStr)
    (hnd : ks.Nodup) (m : Values) (k0 : GoStr) :
    valuesGet (pairsFold (ks.flatMap fun k => (V k).map fun v => (k, v)) m) k0 =
      if k0 ∈ ks ∧ V k0 ≠ [] then some ((valuesGet m k0).getD [] ++ V k0)
      else valuesGet m k0 := by
  induction ks generalizing m with
  | nil => simp [pairsFold]
  | cons k ks ih =>
    rw [List.flatMap_cons, pairsFold_append, pairsFold_block]
    have hnd2 := (List.nodup_cons.1 hnd).2
    have hknotin := (List.nodup_cons.1 hnd).1
    rw [ih hnd2 (addAll m k (V k)) ]
    by_cases hk : k0 = k
    · subst hk
      have hnot : k0 ∉ ks := hknotin
      by_cases hv : V k0 = []
      · simp [hnot, hv, addAll]
      · simp only [hnot, false_and, if_neg, List.mem_cons, true_or, hv,
          ne_eq, not_false_iff, and_true, if_pos]
        exact valuesGet_addAll_self m k0 (V k0) hv
    · rw [valuesGet_addAll_other m k k0 (V k) (Ne.symm hk)]
      by_cases hmem : k0 ∈ ks <;> simp [hmem, hk]

theorem valuesGet_some_of_mem_keys (uv : Values) (k : GoStr)
    (h : k ∈ uv.map Prod.fst) : ∃ vs, valuesGet uv k = some vs := by
  induction uv with
  | nil => cases h
  | cons hd rest ih =>
    obtain ⟨k0, vs0⟩ := hd
    by_cases hk : k0 = k
    · subst hk; exact ⟨vs0, by simp [valuesGet]⟩
    · simp only [List.map_cons, List.mem_cons] at h
      rcases h with h | h
      · exact absurd h.symm hk
      · obtain ⟨vs, hvs⟩ := ih h
        exact ⟨vs, by simp [valuesGet, hk, hvs]⟩

theorem valuesGet_parse_encode (uv : Values) (hwf : ValuesWF uv) (k : GoStr) :
    valuesGet (pairsFold (pairsOf uv) []) k = valuesGet uv k := by
  have hperm := List.perm_insertionSort (· ≤ ·) (uv.map Prod.fst)
  have hnd : (List.insertionSort (· ≤ ·) (uv.map Prod.fst)).Nodup :=
    hwf.1.perm hperm.symm
  unfold pairsOf
  rw [valuesGet_pairsFold_blocks _ _ hnd [] k]
  by_cases hm : k ∈ uv.map Prod.fst
  · have hmem : k ∈ List.insertionSort (· ≤ ·) (uv.map Prod.fst) :=
      hperm.mem_iff.2 hm
    obtain ⟨vs, hvs⟩ := valuesGet_some_of_mem_keys uv k hm
    have hvne : vs ≠ [] := (hwf.2 (k, vs) (valuesGet_mem _ _ _ hvs)).2.1
    simp [hmem, hvs, hvne, valuesGet]
  · have hnone : valuesGet uv k = none := valuesGet_none_of_not_mem uv k hm
    have hnmem : k ∉ List.insertionSort (· ≤ ·) (uv.map Prod.fst) :=
      fun hc => hm (hperm.mem_iff.1 hc)
    simp [hnmem, hnone, valuesGet]

/-! ## Lemmas about decimal conversion -/

theorem digit_facts : ∀ r < 10, digitVal (Char.ofNat (48 + r)) = some r ∧
    Char.ofNat (48 + r) ≠ '-' ∧ Char.ofNat (48 + r) ≠ '+' ∧
    (Char.ofNat (48 + r)).toNat < 256 := by
  decide

theorem natDigitsRev_mem (m : Nat) :
    ∀ c ∈ natDigitsRev m, ∃ r, r < 10 ∧ c = Char.ofNat (48 + r) := by
  induction m using Nat.strong_induction_on with
  | _ m ih =>
    intro c hc
    rw [natDigitsRev] at hc
    by_cases h0 : m = 0
    · rw [if_pos h0] at hc; cases hc
    · rw [if_neg h0] at hc
      rcases List.mem_cons.1 hc with rfl | hc
      · exact ⟨m % 10, Nat.mod_lt m (by norm_num), rfl⟩
      · exact ih (m / 10) (Nat.div_lt_self (Nat.pos_of_ne_zero h0) (by norm_num)) c hc

theorem natRepr_mem (m : Nat) :
    ∀ c ∈ natRepr m, ∃ r, r < 10 ∧ c = Char.ofNat (48 + r) := by
  intro c hc
  unfold natRepr at hc
  by_cases h0 : m = 0
  · rw [if_pos h0] at hc
    rcases List.mem_singleton.1 hc with rfl
    exact ⟨0, by norm_num, rfl⟩
  · rw [if_neg h0, List.mem_reverse] at hc
    exact natDigitsRev_mem m c hc

theorem byteWF_natRepr (m : Nat) : ByteWF (natRepr m) := by
  intro c hc
  obtain ⟨r, hr, rfl⟩ := natRepr_mem m c hc
  exact (digit_facts r hr).2.2.2

theorem parseDigitsAux_append (acc : Nat) (xs ys : List Char) :
    parseDigitsAux acc (xs ++ ys) =
      match parseDigitsAux acc xs with
      | some a => parseDigitsAux a ys
      | none => none := by
  induction xs generalizing acc with
  | nil => rfl
  | cons c rest ih =>
    rw [List.cons_append, parseDigitsAux, parseDigitsAux]
    cases digitVal c with
    | none => rfl
    | some d => exact ih (acc * 10 + d)

theorem parseDigitsAux_rev (m : Nat) : ∀ acc,
    parseDigitsAux acc (natDigitsRev m).reverse =
      some (acc * 10 ^ (natDigitsRev m).length + m) := by
  induction m using Nat.strong_induction_on with
  | _ m ih =>
    intro acc
    by_cases h0 : m = 0
    · subst h0
      rw [natDigitsRev, if_pos rfl]
      simp [parseDigitsAux]
    · rw [natDigitsRev, if_neg h0, List.reverse_cons, parseDigitsAux_append,
        ih (m / 10) (Nat.div_lt_self (Nat.pos_of_ne_zero h0) (by norm_num)) acc]
      have hd : digitVal (Char.ofNat (48 + m % 10)) = some (m % 10) :=
        (digit_facts (m % 10) (Nat.mod_lt m (by norm_num))).1
      simp only [parseDigitsAux, hd]
      congr 1
      have hqr : m / 10 * 10 + m % 10 = m := by omega
      rw [List.length_cons]
      calc (acc * 10 ^ (natDigitsRev (m / 10)).length + m / 10) * 10 + m % 10
          = acc * (10 ^ (natDigitsRev (m / 10)).length * 10) +
              (m / 10 * 10 + m % 10) := by ring
        _ = acc * 10 ^ ((natDigitsRev (m / 10)).length + 1) + m := by
              rw [hqr, pow_succ]

theorem parseDigits_natRepr (m : Nat) : parseDigits (natRepr m) = some m := by
  by_cases h0 : m = 0
  · subst h0; decide
  · have hne : natDigitsRev m ≠ [] := by
      rw [natDigitsRev, if_neg h0]; simp
    have hrepr : natRepr m = (natDigitsRev m).reverse := by
      rw [natRepr, if_neg h0]
    rcases hrev : (natDigitsRev m).reverse with _ | ⟨c, cs⟩
    · exact absurd (by simpa using hrev) hne
    · rw [hrepr, hrev]
      have : parseDigits (c :: cs) = parseDigitsAux 0 (c :: cs) := rfl
      rw [this, ← hrev, parseDigitsAux_rev m 0]
      simp

theorem natRepr_ne_nil (m : Nat) : natRepr m ≠ [] := by
  unfold natRepr
  by_cases h0 : m = 0
  · simp [h0]
  · rw [if_neg h0]
    have : natDigitsRev m ≠ [] := by rw [natDigitsRev, if_neg h0]; simp
    simpa using this

theorem parseIntMag_repr_true (bits : Nat) (m : Nat)
    (h : (m : Int) ≤ 2 ^ (bits - 1)) :
    parseIntMag bits true (natRepr m) = .ok (-(m : Int)) := by
  unfold parseIntMag
  rw [parseDigits_natRepr]
  simp [h]

theorem parseIntMag_repr_false (bits : Nat) (m : Nat)
    (h : (m : Int) < 2 ^ (bits - 1)) :
    parseIntMag bits false (natRepr m) = .ok (m : Int) := by
  unfold parseIntMag
  rw [parseDigits_natRepr]
  simp [h]

theorem parseIntGo_formatInt (bits : Nat) (n : Int)
    (hlo : -(2 ^ (bits - 1) : Int) ≤ n) (hhi : n < 2 ^ (bits - 1)) :
    parseIntGo bits (formatInt n) = .ok n := by
  by_cases hneg : n < 0
  · rw [formatInt, if_pos hneg]
    have : parseIntGo bits ('-' :: natRepr n.natAbs) =
        parseIntMag bits true (natRepr n.natAbs) := rfl
    rw [this, parseIntMag_repr_true bits n.natAbs (by omega)]
    congr 1
    omega
  · rw [formatInt, if_neg hneg]
    rcases hrepr : natRepr n.natAbs with _ | ⟨c, cs⟩
    · exact absurd hrepr (natRepr_ne_nil n.natAbs)
    · obtain ⟨r, hr, hc⟩ := natRepr_mem n.natAbs c (hrepr ▸ List.mem_cons_self c cs)
      have hcm : c ≠ '-' := hc ▸ (digit_facts r hr).2.1
      have hcp : c ≠ '+' := hc ▸ (digit_facts r hr).2.2.1
      have hgo : parseIntGo bits (c :: cs) = parseIntMag bits false (c :: cs) :=
        parseIntGo.eq_4 bits (c :: cs) (by simp)
          (fun rest h => hcm (List.cons.injEq .. ▸ h).1)
          (fun rest h => hcp (List.cons.injEq .. ▸ h).1)
      rw [hgo, ← hrepr, parseIntMag_repr_false bits n.natAbs (by omega)]
      congr 1
      omega

theorem parseUintGo_natRepr (bits : Nat) (m : Nat) (h : (m : Int) < 2 ^ bits) :
    parseUintGo bits (natRepr m) = .ok m := by
  unfold parseUintGo
  rw [parseDigits_natRepr]
  simp [h]

/-- Round trip of one scalar value through `convertToString` and
`convertFromString` at its own kind. -/
theorem convert_roundtrip (k : GoKind) (v : GoValue) (hwt : WT (.prim k) v = true) :
    ∃ s, convertToString v = .ok s ∧ ByteWF s ∧
      convertFromString (.prim k) s = .ok v := by
  cases v with
  | vstr s =>
    cases k <;> simp [WT] at hwt
    exact ⟨s, rfl, hwt, rfl⟩
  | vslice b e l => cases k <;> simp [WT] at hwt
  | vint k2 n =>
    have hk2 : k2 = k ∧ ¬k = .kstring ∧ kindRange k n := by
      cases k <;> simp_all [WT, kindRange]
    obtain ⟨rfl, hks, hrange⟩ := hk2
    cases k2 <;> simp [kindRange, signedKind, bitsOf] at hrange <;>
      first
      | exact absurd rfl hks
      | (refine ⟨formatInt n, by simp [convertToString, signedKind], ?_, ?_⟩
         · unfold formatInt
           split <;> [skip; exact byteWF_natRepr _]
           intro c hc
           rcases List.mem_cons.1 hc with rfl | hc
           · decide
           · exact byteWF_natRepr _ c hc
         · simp only [convertFromString]
           rw [parseIntGo_formatInt _ n (by exact_mod_cast hrange.1)
             (by exact_mod_cast hrange.2)]
           rfl)
      | (have hnn : 0 ≤ n := hrange.1
         refine ⟨natRepr n.natAbs, by simp [convertToString, signedKind], byteWF_natRepr _, ?_⟩
         simp only [convertFromString]
         rw [parseUintGo_natRepr _ n.natAbs (by omega)]
         have : (n.natAbs : Int) = n := by omega
         rw [this]
         rfl)

/-! ## Lemmas about the decoder's field loop -/

theorem decodeFields_cons_skip (q : Values) (st : StructType) (f : structfield)
    (fs : List structfield) (r : Record)
    (hv : (valuesGet q f.KeyName).getD [] = []) :
    decodeFields q st (f :: fs) r = decodeFields q st fs r := by
  rw [decodeFields, hv]

theorem decodeFields_cons_err (q : Values) (st : StructType) (f : structfield)
    (fs : List structfield) (r : Record) (v0 : GoStr) (vrest : List GoStr)
    (e : String) (hv : (valuesGet q f.KeyName).getD [] = v0 :: vrest)
    (hsv : svFor f (v0 :: vrest) = .error e) :
    decodeFields q st (f :: fs) r = .done r (some e) := by
  rw [decodeFields, hv]
  simp only [hsv]

theorem decodeFields_cons_nolookup (q : Values) (st : StructType)
    (f : structfield) (fs : List structfield) (r : Record) (v0 : GoStr)
    (vrest : List GoStr) (sv : GoValue)
    (hv : (valuesGet q f.KeyName).getD [] = v0 :: vrest)
    (hsv : svFor f (v0 :: vrest) = .ok sv)
    (hlf : lookupFieldType st f.FieldName = none) :
    decodeFields q st (f :: fs) r = .crash := by
  rw [decodeFields, hv]
  simp only [hsv, hlf]

theorem decodeFields_cons_mismatch (q : Values) (st : StructType)
    (f : structfield) (fs : List structfield) (r : Record) (v0 : GoStr)
    (vrest : List GoStr) (sv : GoValue) (dt : GoType)
    (hv : (valuesGet q f.KeyName).getD [] = v0 :: vrest)
    (hsv : svFor f (v0 :: vrest) = .ok sv)
    (hlf : lookupFieldType st f.FieldName = some dt) (hty : typeOf sv ≠ dt) :
    decodeFields q st (f :: fs) r = .crash := by
  rw [decodeFields, hv]
  simp only [hsv, hlf, if_pos hty]

theorem decodeFields_cons_set (q : Values) (st : StructType) (f : structfield)
    (fs : List structfield) (r : Record) (v0 : GoStr) (vrest : List GoStr)
    (sv : GoValue) (dt : GoType)
    (hv : (valuesGet q f.KeyName).getD [] = v0 :: vrest)
    (hsv : svFor f (v0 :: vrest) = .ok sv)
    (hlf : lookupFieldType st f.FieldName = some dt) (hty : typeOf sv = dt) :
    decodeFields q st (f :: fs) r =
      decodeFields q st fs (setField r f.FieldName sv) := by
  rw [decodeFields, hv]
  simp only [hsv, hlf]
  rw [if_neg (fun hcon => hcon hty)]

/-- Exhaustive rewriting of one loop step, as a disjunction over the branch
taken (used to drive inductions below). -/
theorem decodeFields_cons_cases (q : Values) (st : StructType)
    (f : structfield) (fs : List structfield) (r : Record) :
    decodeFields q st (f :: fs) r = decodeFields q st fs r ∨
    (∃ e, decodeFields q st (f :: fs) r = .done r (some e)) ∨
    decodeFields q st (f :: fs) r = .crash ∨
    (∃ sv, (∃ v0 vrest, (valuesGet q f.KeyName).getD [] = v0 :: vrest ∧
        svFor f (v0 :: vrest) = .ok sv) ∧
      decodeFields q st (f :: fs) r =
        decodeFields q st fs (setField r f.FieldName sv)) := by
  rcases hv : (valuesGet q f.KeyName).getD [] with _ | ⟨v0, vrest⟩
  · exact Or.inl (decodeFields_cons_skip q st f fs r hv)
  · rcases hsv : svFor f (v0 :: vrest) with e | sv
    · exact Or.inr (Or.inl ⟨e, decodeFields_cons_err q st f fs r v0 vrest e hv hsv⟩)
    · rcases hlf : lookupFieldType st f.FieldName with _ | dt
      · exact Or.inr (Or.inr (Or.inl
          (decodeFields_cons_nolookup q st f fs r v0 vrest sv hv hsv hlf)))
      · by_cases hty : typeOf sv = dt
        · exact Or.inr (Or.inr (Or.inr ⟨sv, ⟨⟨v0, vrest, rfl, hsv⟩,
            decodeFields_cons_set q st f fs r v0 vrest sv dt hv hsv hlf hty⟩⟩))
        · exact Or.inr (Or.inr (Or.inl
            (decodeFields_cons_mismatch q st f fs r v0 vrest sv dt hv hsv hlf hty)))

theorem decodeFields_frame (q : Values) (st : StructType)
    (fields : List structfield) (n : GoStr)
    (h : ∀ f ∈ fields, f.FieldName = n → (valuesGet q f.KeyName).getD [] = []) :
    ∀ r r2 e, decodeFields q st fields r = .done r2 e → r2 n = r n := by
  induction fields with
  | nil =>
    intro r r2 e hd
    cases hd
    rfl
  | cons f fs ih =>
    intro r r2 e hd
    have htail := fun g hg => h g (List.mem_cons_of_mem f hg)
    rcases decodeFields_cons_cases q st f fs r with hc | ⟨e2, hc⟩ | hc |
        ⟨sv, ⟨v0, vrest, hv, _⟩, hc⟩
    · exact ih htail r r2 e (hc ▸ hd)
    · rw [hc] at hd
      cases hd
      rfl
    · rw [hc] at hd
      cases hd
    · rw [hc] at hd
      have hr2 := ih htail _ r2 e hd
      rw [hr2, setField]
      have hne : ¬n = f.FieldName := by
        intro heq
        have hnil := h f (List.mem_cons_self f fs) heq.symm
        rw [hnil] at hv
        cases hv
      rw [if_neg hne]

theorem decodeFields_ok_mem (q : Values) (st : StructType)
    (fields : List structfield)
    (hnd : (fields.map structfield.FieldName).Nodup)
    (f : structfield) (hf : f ∈ fields) (v0 : GoStr) (vrest : List GoStr)
    (hvs : (valuesGet q f.KeyName).getD [] = v0 :: vrest) :
    ∀ r r2, decodeFields q st fields r = .done r2 none →
      ∃ sv, svFor f (v0 :: vrest) = .ok sv ∧ r2 f.FieldName = sv := by
  induction fields with
  | nil => cases hf
  | cons g fs ih =>
    intro r r2 hd
    rcases List.mem_cons.1 hf with rfl | hfm
    · rcases hsv : svFor f (v0 :: vrest) with e2 | sv
      · rw [decodeFields_cons_err q st f fs r v0 vrest e2 hvs hsv] at hd
        injection hd with h1 h2
        exact absurd h2 (by simp)
      · rcases hlf : lookupFieldType st f.FieldName with _ | dt
        · rw [decodeFields_cons_nolookup q st f fs r v0 vrest sv hvs hsv hlf] at hd
          cases hd
        · by_cases hty : typeOf sv = dt
          · rw [decodeFields_cons_set q st f fs r v0 vrest sv dt hvs hsv hlf hty] at hd
            have hnotin : f.FieldName ∉ fs.map structfield.FieldName :=
              (List.nodup_cons.1 hnd).1
            have hfr := decodeFields_frame q st fs f.FieldName
              (fun g2 hg2 heq =>
                absurd (heq ▸ List.mem_map_of_mem structfield.FieldName hg2) hnotin)
              _ r2 none hd
            refine ⟨sv, rfl, ?_⟩
            rw [hfr, setField, if_pos rfl]
          · rw [decodeFields_cons_mismatch q st f fs r v0 vrest sv dt hvs hsv hlf hty] at hd
            cases hd
    · have hnd2 := (List.nodup_cons.1 hnd).2
      rcases decodeFields_cons_cases q st g fs r with hc | ⟨e2, hc⟩ | hc |
          ⟨sv, _, hc⟩
      · exact ih hnd2 hfm r r2 (hc ▸ hd)
      · rw [hc] at hd
        injection hd with h1 h2
        exact absurd h2 (by simp)
      · rw [hc] at hd
        cases hd
      · exact ih hnd2 hfm _ r2 (hc ▸ hd)

theorem decodeFields_fail_mem (q : Values) (st : StructType)
    (fields : List structfield) (f : structfield) (hf : f ∈ fields)
    (v0 : GoStr) (vrest : List GoStr)
    (hvs : (valuesGet q f.KeyName).getD [] = v0 :: vrest) (e : String)
    (herr : svFor f (v0 :: vrest) = .error e) :
    ∀ r r2, decodeFields q st fields r ≠ .done r2 none := by
  induction fields with
  | nil => cases hf
  | cons g fs ih =>
    intro r r2 hd
    rcases List.mem_cons.1 hf with rfl | hfm
    · rw [decodeFields_cons_err q st f fs r v0 vrest e hvs herr] at hd
      injection hd with h1 h2
      exact absurd h2 (by simp)
    · rcases decodeFields_cons_cases q st g fs r with hc | ⟨e2, hc⟩ | hc |
          ⟨sv, _, hc⟩
      · exact ih hfm r r2 (hc ▸ hd)
      · rw [hc] at hd
        injection hd with h1 h2
        exact absurd h2 (by simp)
      · rw [hc] at hd
        cases hd
      · exact ih hfm _ r2 (hc ▸ hd)

theorem decodeFields_all_ok (q : Values) (st : StructType)
    (fields : List structfield)
    (h : ∀ f ∈ fields, ∀ v0 vrest,
      (valuesGet q f.KeyName).getD [] = v0 :: vrest →
      ∃ sv, svFor f (v0 :: vrest) = .ok sv ∧
        lookupFieldType st f.FieldName = some (typeOf sv)) :
    ∀ r, ∃ r2, decodeFields q st fields r = .done r2 none := by
  induction fields with
  | nil => exact fun r => ⟨r, rfl⟩
  | cons f fs ih =>
    intro r
    have htail := fun g hg => h g (List.mem_cons_of_mem f hg)
    rcases hv : (valuesGet q f.KeyName).getD [] with _ | ⟨v0, vrest⟩
    · obtain ⟨r2, hr2⟩ := ih htail r
      exact ⟨r2, by rw [decodeFields_cons_skip q st f fs r hv]; exact hr2⟩
    · obtain ⟨sv, hsv, hlf⟩ := h f (List.mem_cons_self f fs) v0 vrest hv
      obtain ⟨r2, hr2⟩ := ih htail (setField r f.FieldName sv)
      exact ⟨r2, by
        rw [decodeFields_cons_set q st f fs r v0 vrest sv (typeOf sv) hv hsv hlf rfl]
        exact hr2⟩

theorem addAll_append (uv : Values) (k : GoStr) (ss ts : List GoStr) :
    addAll uv k (ss ++ ts) = addAll (addAll uv k ss) k ts := by
  unfold addAll
  rw [List.foldl_append]

theorem addElems_ok (name : GoStr) (elems : List GoValue) :
    ∀ uv ss, convertAll elems = .ok ss →
      addElems name uv elems = .ok (addAll uv name ss) := by
  induction elems with
  | nil =>
    intro uv ss h
    injection h with h
    subst h
    rfl
  | cons e es ih =>
    intro uv ss h
    rw [convertAll] at h
    rcases hc : convertToString e with msg | s
    · rw [hc] at h; cases h
    · rw [hc] at h
      rcases hrest : convertAll es with msg | ss2
      · rw [hrest] at h; cases h
      · rw [hrest] at h
        injection h with h
        subst h
        rw [addElems, hc]
        show addElems name (valuesAdd uv name s) es = _
        rw [ih (valuesAdd uv name s) ss2 hrest]
        rfl

theorem addValue_scalar (uv : Values) (name : GoStr) (fv : GoValue)
    (ft : GoType) (s : GoStr) (hnum : isStringOrNumeric ft = true)
    (hc : convertToString fv = .ok s) :
    addValue uv name fv ft = .ok (valuesAdd uv name s) := by
  rw [addValue.eq_def, if_pos hnum]
  simp only [hc]

theorem addValue_slice (uv : Values) (name : GoStr) (b : Bool) (et : GoType)
    (elems : List GoValue) (ft : GoType) (ss : List GoStr)
    (hnum : isStringOrNumeric ft = false) (hca : convertAll elems = .ok ss) :
    addValue uv name (.vslice b et elems) ft = .ok (addAll uv name ss) := by
  rw [addValue.eq_def, if_neg (by rw [hnum]; exact Bool.false_ne_true)]
  exact addElems_ok name elems uv ss hca

theorem marshalStructFields_cons_skip (r : Record) (uv : Values)
    (f : structfield) (fs : List structfield)
    (homit : (f.OmitEmpty && isEmptyValue (r f.FieldName)) = true) :
    marshalStructFields r uv (f :: fs) = marshalStructFields r uv fs := by
  rw [marshalStructFields, if_pos homit]

theorem marshalStructFields_cons_add (r : Record) (uv uv2 : Values)
    (f : structfield) (fs : List structfield)
    (homit : (f.OmitEmpty && isEmptyValue (r f.FieldName)) = false)
    (haddv : addValue uv f.KeyName (r f.FieldName) f.Typ = .ok uv2) :
    marshalStructFields r uv (f :: fs) = marshalStructFields r uv2 fs := by
  rw [marshalStructFields, if_neg (by rw [homit]; exact Bool.false_ne_true)]
  simp only [haddv]

theorem marshalStructFields_ok (r : Record) (ss : structfield → List GoStr) :
    ∀ (fields : List structfield), (∀ f ∈ fields, contribOk r f (ss f)) →
    ∀ uv, marshalStructFields r uv fields =
      .ok (fields.foldl (fun m f => addAll m f.KeyName (ss f)) uv) := by
  intro fields
  induction fields with
  | nil => intro _ uv; rfl
  | cons f fs ih =>
    intro h uv
    have htail := fun g hg => h g (List.mem_cons_of_mem f hg)
    rw [List.foldl_cons]
    rcases h f (List.mem_cons_self f fs) with ⟨homit, hss⟩ | ⟨homit, hrest⟩
    · rw [marshalStructFields_cons_skip r uv f fs homit, hss]
      exact ih htail uv
    · rcases hrest with ⟨hnum, s, hcs, hss⟩ | ⟨hnum, b, et, elems, hfv, hca⟩
      · rw [marshalStructFields_cons_add r uv (valuesAdd uv f.KeyName s) f fs homit
          (addValue_scalar uv f.KeyName (r f.FieldName) f.Typ s hnum hcs), hss]
        exact ih htail (valuesAdd uv f.KeyName s)
      · rw [marshalStructFields_cons_add r uv (addAll uv f.KeyName (ss f)) f fs homit
          (by rw [hfv]; exact addValue_slice uv f.KeyName b et elems f.Typ (ss f) hnum hca)]
        exact ih htail (addAll uv f.KeyName (ss f))

theorem fieldsFold_get_other (ss : structfield → List GoStr) (k0 : GoStr) :
    ∀ (fields : List structfield) (m : Values),
      (∀ f ∈ fields, f.KeyName ≠ k0) →
      valuesGet (fields.foldl (fun m f => addAll m f.KeyName (ss f)) m) k0 =
        valuesGet m k0 := by
  intro fields
  induction fields with
  | nil => intro m _; rfl
  | cons f fs ih =>
    intro m h
    rw [List.foldl_cons,
      ih (addAll m f.KeyName (ss f)) (fun g hg => h g (List.mem_cons_of_mem f hg)),
      valuesGet_addAll_other m f.KeyName k0 (ss f) (h f (List.mem_cons_self f fs))]

theorem fieldsFold_get_mem (ss : structfield → List GoStr) (f : structfield) :
    ∀ (fields : List structfield), f ∈ fields →
      (fields.map structfield.KeyName).Nodup → ∀ m : Values,
      valuesGet (fields.foldl (fun m g => addAll m g.KeyName (ss g)) m) f.KeyName =
        (if ss f = [] then valuesGet m f.KeyName
         else some ((valuesGet m f.KeyName).getD [] ++ ss f)) := by
  intro fields
  induction fields with
  | nil => intro hf; cases hf
  | cons g fs ih =>
    intro hf hnd m
    rw [List.foldl_cons]
    have hhead : g.KeyName ∉ fs.map structfield.KeyName := (List.nodup_cons.1 hnd).1
    rcases List.mem_cons.1 hf with rfl | hfm
    · rw [fieldsFold_get_other ss f.KeyName fs _
        (fun g2 hg2 heq => hhead (heq ▸ List.mem_map_of_mem structfield.KeyName hg2))]
      by_cases hss : ss f = []
      · rw [if_pos hss, hss]; rfl
      · rw [if_neg hss, valuesGet_addAll_self m f.KeyName (ss f) hss]
    · have hne : g.KeyName ≠ f.KeyName := by
        intro heq
        exact hhead (heq ▸ List.mem_map_of_mem structfield.KeyName hfm)
      rw [ih hfm (List.nodup_cons.1 hnd).2 (addAll m g.KeyName (ss g)),
        valuesGet_addAll_other m g.KeyName f.KeyName (ss g) hne]

theorem addAll_keys_nodup (m : Values) (k : GoStr) (vs : List GoStr)
    (h : (m.map Prod.fst).Nodup) : ((addAll m k vs).map Prod.fst).Nodup := by
  induction vs generalizing m with
  | nil => exact h
  | cons v rest ih => exact ih (valuesAdd m k v) (valuesAdd_keys_nodup m k v h)

theorem valuesAdd_entries_wf (uv : Values) (k v : GoStr) (h : EntriesWF uv)
    (hk : ByteWF k) (hv : ByteWF v) : EntriesWF (valuesAdd uv k v) := by
  induction uv with
  | nil =>
    intro p hp
    rcases List.mem_singleton.1 hp with rfl
    exact ⟨hk, by simp, by simpa using hv⟩
  | cons hd rest ih =>
    obtain ⟨k0, vs⟩ := hd
    have hhd := h (k0, vs) (List.mem_cons_self _ _)
    by_cases hk0 : k0 = k
    · subst hk0
      intro p hp
      rw [valuesAdd, if_pos rfl] at hp
      rcases List.mem_cons.1 hp with rfl | hp
      · refine ⟨hhd.1, by simp, ?_⟩
        intro w hw
        rcases List.mem_append.1 hw with hw | hw
        · exact hhd.2.2 w hw
        · rcases List.mem_singleton.1 hw with rfl; exact hv
      · exact h p (List.mem_cons_of_mem _ hp)
    · intro p hp
      rw [valuesAdd, if_neg hk0] at hp
      rcases List.mem_cons.1 hp with rfl | hp
      · exact hhd
      · exact ih (fun q hq => h q (List.mem_cons_of_mem _ hq)) p hp

theorem addAll_entries_wf (m : Values) (k : GoStr) (vs : List GoStr)
    (h : EntriesWF m) (hk : ByteWF k) (hvs : ∀ v ∈ vs, ByteWF v) :
    EntriesWF (addAll m k vs) := by
  induction vs generalizing m with
  | nil => exact h
  | cons v rest ih =>
    exact ih (valuesAdd m k v)
      (valuesAdd_entries_wf m k v h hk (hvs v (List.mem_cons_self v rest)))
      (fun w hw => hvs w (List.mem_cons_of_mem v hw))

theorem fieldsFold_wf (ss : structfield → List GoStr) :
    ∀ (fields : List structfield) (m : Values),
      (m.map Prod.fst).Nodup → EntriesWF m →
      (∀ f ∈ fields, ByteWF f.KeyName) →
      (∀ f ∈ fields, ∀ v ∈ ss f, ByteWF v) →
      ValuesWF (fields.foldl (fun acc f => addAll acc f.KeyName (ss f)) m) := by
  intro fields
  induction fields with
  | nil => exact fun m hmk hme _ _ => ⟨hmk, hme⟩
  | cons f fs ih =>
    intro m hmk hme hkeys hss
    rw [List.foldl_cons]
    exact ih (addAll m f.KeyName (ss f))
      (addAll_keys_nodup m f.KeyName (ss f) hmk)
      (addAll_entries_wf m f.KeyName (ss f) hme
        (hkeys f (List.mem_cons_self f fs)) (hss f (List.mem_cons_self f fs)))
      (fun g hg => hkeys g (List.mem_cons_of_mem f hg))
      (fun g hg => hss g (List.mem_cons_of_mem f hg))

/-! ## Lemmas about the parsed map and the map target -/

theorem parseQueryStep_keys_nodup (acc : Values × Option String) (seg : GoStr)
    (h : (acc.1.map Prod.fst).Nodup) :
    (((parseQueryStep acc seg).1).map Prod.fst).Nodup := by
  unfold parseQueryStep
  by_cases hs : seg.contains ';'
  · rw [if_pos hs]; exact h
  · rw [if_neg hs]
    by_cases he : seg = []
    · rw [if_pos he]; exact h
    · rw [if_neg he]
      rcases hk : queryUnescape (cutChar '=' seg).1 with e | k
      · exact h
      · rcases hv : queryUnescape (cutChar '=' seg).2 with e | v
        · exact h
        · exact valuesAdd_keys_nodup acc.1 k v h

theorem foldl_parseQueryStep_keys_nodup (segs : List GoStr) :
    ∀ acc : Values × Option String, (acc.1.map Prod.fst).Nodup →
      (((segs.foldl parseQueryStep acc).1).map Prod.fst).Nodup := by
  induction segs with
  | nil => exact fun acc h => h
  | cons seg rest ih =>
    intro acc h
    exact ih (parseQueryStep acc seg) (parseQueryStep_keys_nodup acc seg h)

theorem parseQuery_keys_nodup (data : GoStr) (q : Values)
    (h : parseQuery data = .ok q) : (q.map Prod.fst).Nodup := by
  unfold parseQuery at h
  rcases hf : (splitOnChar '&' data).foldl parseQueryStep ([], none) with ⟨m, e⟩
  have hm : (m.map Prod.fst).Nodup := by
    have := foldl_parseQueryStep_keys_nodup (splitOnChar '&' data) ([], none)
      (by simp)
    rw [hf] at this
    exact this
  rw [hf] at h
  cases e with
  | none => injection h with h; exact h ▸ hm
  | some e2 => cases h

theorem mapGet_set_self (m : MapRec) (k : GoStr) (v : GoValue) :
    mapGet (mapSet m k v) k = some v := by
  induction m with
  | nil => simp [mapSet, mapGet]
  | cons hd rest ih =>
    obtain ⟨k0, v0⟩ := hd
    by_cases hk : k0 = k
    · subst hk; simp [mapSet, mapGet]
    · simp [mapSet, mapGet, hk, ih]

theorem mapGet_set_other (m : MapRec) (k k2 : GoStr) (v : GoValue)
    (h : k ≠ k2) : mapGet (mapSet m k v) k2 = mapGet m k2 := by
  induction m with
  | nil => simp [mapSet, mapGet, h]
  | cons hd rest ih =>
    obtain ⟨k0, v0⟩ := hd
    by_cases hk : k0 = k
    · subst hk; simp [mapSet, mapGet, h]
    · by_cases hk2 : k0 = k2
      · subst hk2; simp [mapSet, mapGet, hk]
      · simp [mapSet, mapGet, hk, hk2, ih]

theorem mapGet_decode_fold_other (q : Values) :
    ∀ (m : MapRec) (k : GoStr), (∀ p ∈ q, p.1 ≠ k) →
      mapGet (q.foldl (fun acc kv => mapSet acc kv.1 (mapDecodedValue kv.2)) m) k =
        mapGet m k := by
  induction q with
  | nil => intro m k _; rfl
  | cons p rest ih =>
    intro m k h
    rw [List.foldl_cons,
      ih (mapSet m p.1 (mapDecodedValue p.2)) k
        (fun p2 hp2 => h p2 (List.mem_cons_of_mem p hp2)),
      mapGet_set_other m p.1 k (mapDecodedValue p.2) (h p (List.mem_cons_self p rest))]

theorem mapGet_decode_fold (q : Values) :
    ∀ (m : MapRec) (k : GoStr) (vs : List GoStr),
      (q.map Prod.fst).Nodup → valuesGet q k = some vs →
      mapGet (q.foldl (fun acc kv => mapSet acc kv.1 (mapDecodedValue kv.2)) m) k =
        some (mapDecodedValue vs) := by
  induction q with
  | nil => intro m k vs _ h; cases h
  | cons p rest ih =>
    intro m k vs hnd hk
    obtain ⟨k0, vs0⟩ := p
    rw [List.foldl_cons]
    by_cases hkk : k0 = k
    · subst hkk
      rw [valuesGet, if_pos rfl] at hk
      injection hk with hk
      subst hk
      have hnotin : k0 ∉ rest.map Prod.fst := (List.nodup_cons.1 hnd).1
      rw [mapGet_decode_fold_other rest _ k0
        (fun p2 hp2 heq => hnotin (heq ▸ List.mem_map_of_mem Prod.fst hp2)),
        mapGet_set_self]
    · rw [valuesGet, if_neg hkk] at hk
      exact ih _ k vs (List.nodup_cons.1 hnd).2 hk

/-! ## Sequencing lemma for the decoder loop -/

theorem decodeFields_append_ok (q : Values) (st : StructType)
    (xs ys : List structfield) :
    ∀ r r1, decodeFields q st xs r = .done r1 none →
      decodeFields q st (xs ++ ys) r = decodeFields q st ys r1 := by
  induction xs with
  | nil =>
    intro r r1 h
    cases h
    rfl
  | cons x xs ih =>
    intro r r1 h
    rcases hv : (valuesGet q x.KeyName).getD [] with _ | ⟨v0, vrest⟩
    · rw [decodeFields_cons_skip q st x xs r hv] at h
      rw [List.cons_append, decodeFields_cons_skip q st x (xs ++ ys) r hv]
      exact ih r r1 h
    · rcases hsv : svFor x (v0 :: vrest) with e | sv
      · rw [decodeFields_cons_err q st x xs r v0 vrest e hv hsv] at h
        injection h with h1 h2
        exact absurd h2 (by simp)
      · rcases hlf : lookupFieldType st x.FieldName with _ | dt
        · rw [decodeFields_cons_nolookup q st x xs r v0 vrest sv hv hsv hlf] at h
          cases h
        · by_cases hty : typeOf sv = dt
          · rw [decodeFields_cons_set q st x xs r v0 vrest sv dt hv hsv hlf hty] at h
            rw [List.cons_append,
              decodeFields_cons_set q st x (xs ++ ys) r v0 vrest sv dt hv hsv hlf hty]
            exact ih _ r1 h
          · rw [decodeFields_cons_mismatch q st x xs r v0 vrest sv dt hv hsv hlf hty] at h
            cases h

/-! ## Text-level properties of the encoder's output -/

theorem filterMap_id_of {α : Type} (g : α → Option α) :
    ∀ l : List α, (∀ a ∈ l, g a = some a) → l.filterMap g = l := by
  intro l
  induction l with
  | nil => intro _; rfl
  | cons a rest ih =>
    intro h
    rw [List.filterMap_cons, h a (List.mem_cons_self a rest),
      ih (fun b hb => h b (List.mem_cons_of_mem a hb))]

theorem queryPairs_seg (k v : GoStr) (hk : ByteWF k) (hv : ByteWF v) :
    (fun seg : GoStr =>
      if seg.contains ';' then none
      else if seg = [] then none
      else
        match queryUnescape (cutChar '=' seg).1,
            queryUnescape (cutChar '=' seg).2 with
        | .ok k2, .ok v2 => some (k2, v2)
        | _, _ => none) (queryEscape k ++ '=' :: queryEscape v) = some (k, v) := by
  have hsemi : ¬(queryEscape k ++ '=' :: queryEscape v).contains ';' = true := by
    intro hc
    rw [List.elem_iff] at hc
    rcases List.mem_append.1 hc with h | h
    · exact (mem_queryEscape_ne k ';' h).2.2 rfl
    · rw [List.mem_cons] at h
      rcases h with h | h
      · exact absurd h (by decide)
      · exact (mem_queryEscape_ne v ';' h).2.2 rfl
  have hcut : cutChar '=' (queryEscape k ++ '=' :: queryEscape v) =
      (queryEscape k, queryEscape v) :=
    cutChar_append '=' _ _ (fun h => (mem_queryEscape_ne k '=' h).2.1 rfl)
  simp only [hsemi, if_neg, Bool.false_eq_true, not_false_iff,
    List.append_eq_nil, reduceCtorEq, if_false, hcut,
    queryUnescape_queryEscape k hk, queryUnescape_queryEscape v hv]
  simp

theorem queryPairs_encodeValues (uv : Values) (hwf : ValuesWF uv) :
    queryPairs (encodeValues uv) = pairsOf uv := by
  have hbw := pairsOf_byteWF uv hwf
  rw [encodeValues_eq_join]
  unfold queryPairs
  rcases hps : pairsOf uv with _ | ⟨p, ps⟩
  · simp [joinAmp, splitOnChar]
  · rw [← hps]
    have hsegne : (pairsOf uv).map
        (fun p => queryEscape p.1 ++ '=' :: queryEscape p.2) ≠ [] := by
      simp [hps]
    rw [splitOnChar_joinAmp _ hsegne ?hamp]
    case hamp =>
      intro seg hseg hin
      rw [List.mem_map] at hseg
      obtain ⟨q, _, rfl⟩ := hseg
      rcases List.mem_append.1 hin with h | h
      · exact (mem_queryEscape_ne q.1 '&' h).1 rfl
      · rw [List.mem_cons] at h
        rcases h with h | h
        · exact absurd h (by decide)
        · exact (mem_queryEscape_ne q.2 '&' h).1 rfl
    rw [List.filterMap_map]
    apply filterMap_id_of
    intro p hp
    have hb := hbw p hp
    exact queryPairs_seg p.1 p.2 hb.1 hb.2

theorem keys_blocks_sorted (ks : List GoStr) (n : GoStr → Nat)
    (hs : List.Sorted (· ≤ ·) ks) :
    List.Sorted (· ≤ ·) (ks.flatMap fun k => List.replicate (n k) k) := by
  induction ks with
  | nil => exact List.sorted_nil
  | cons k rest ih =>
    rw [List.flatMap_cons]
    rw [List.Sorted, List.pairwise_append]
    refine ⟨List.pairwise_replicate.2 (Or.inr (le_refl k)),
      ih (List.sorted_cons.1 hs).2, ?_⟩
    intro a ha b hb
    obtain ⟨_, haeq⟩ := List.mem_replicate.1 ha
    rw [List.mem_flatMap] at hb
    obtain ⟨k2, hk2, hb2⟩ := hb
    obtain ⟨_, hbeq⟩ := List.mem_replicate.1 hb2
    rw [haeq, hbeq]
    exact (List.sorted_cons.1 hs).1 k2 hk2

theorem pairsOf_keys_sorted (uv : Values) :
    List.Sorted (· ≤ ·) ((pairsOf uv).map Prod.fst) := by
  unfold pairsOf
  rw [List.map_flatMap]
  have h2 : (fun k => (((valuesGet uv k).getD []).map (fun v => (k, v))).map Prod.fst) =
      fun k : GoStr => List.replicate ((valuesGet uv k).getD []).length k := by
    funext k
    rw [List.map_map]
    exact List.map_const' _ k
  rw [h2]
  exact keys_blocks_sorted _ _ (List.sorted_insertionSort (· ≤ ·) (uv.map Prod.fst))

theorem blocks_filter (k : GoStr) (V : GoStr → List GoStr) :
    ∀ ks : List GoStr, ks.Nodup →
      ((ks.flatMap fun k2 => (V k2).map fun v => (k2, v)).filter
        (fun p => p.1 == k)).map Prod.snd = if k ∈ ks then V k else [] := by
  intro ks
  induction ks with
  | nil => intro _; simp
  | cons k2 rest ih =>
    intro hnd
    rw [List.flatMap_cons, List.filter_append, List.map_append]
    have hblock : ((((V k2).map fun v => (k2, v)).filter
        (fun p => p.1 == k)).map Prod.snd) = if k2 = k then V k2 else [] := by
      by_cases hk : k2 = k
      · subst hk
        rw [if_pos rfl, List.filter_map]
        simp [Function.comp_def]
      · rw [if_neg hk, List.filter_map]
        simp [Function.comp_def, hk]
    rw [hblock, ih (List.nodup_cons.1 hnd).2]
    by_cases hk : k2 = k
    · subst hk
      have hnot := (List.nodup_cons.1 hnd).1
      simp [hnot]
    · by_cases hm : k ∈ rest <;>
        simp [hm, hk, Ne.symm hk]

theorem encode_text_props (uv : Values) (hwf : ValuesWF uv) :
    List.Sorted (· ≤ ·) ((queryPairs (encodeValues uv)).map Prod.fst) ∧
    ∀ k, ((queryPairs (encodeValues uv)).filter (fun p => p.1 == k)).map
        Prod.snd = (valuesGet uv k).getD [] := by
  rw [queryPairs_encodeValues uv hwf]
  refine ⟨pairsOf_keys_sorted uv, ?_⟩
  intro k
  have hperm := List.perm_insertionSort (· ≤ ·) (uv.map Prod.fst)
  have hnd : (List.insertionSort (· ≤ ·) (uv.map Prod.fst)).Nodup :=
    hwf.1.perm hperm.symm
  unfold pairsOf
  rw [blocks_filter k _ _ hnd]
  by_cases hm : k ∈ uv.map Prod.fst
  · rw [if_pos (hperm.mem_iff.2 hm)]
  · rw [if_neg (fun hc => hm (hperm.mem_iff.1 hc)),
      valuesGet_none_of_not_mem uv k hm]
    rfl

/-! ## Auxiliary facts about schemas and well-typed values -/

theorem buildField_ok_some (f : GoField) (kn : GoStr) (om : Bool)
    (oft : Option GoType) (sf : structfield)
    (h : buildField f kn om oft = .ok (some sf)) :
    isSupportedType sf.Typ true = true ∧ sf.FieldName = f.name ∧
      sf.KeyName = kn ∧ sf.OmitEmpty = om ∧ oft = some sf.Typ := by
  cases oft with
  | none => cases h
  | some ft =>
    simp only [buildField] at h
    by_cases hsup : !isSupportedType ft true
    · rw [if_pos hsup] at h; cases h
    · rw [if_neg hsup] at h
      injection h with h
      injection h with h
      subst h
      exact ⟨by simpa using hsup, rfl, rfl, rfl, rfl⟩

theorem parseField_ok_some (f : GoField) (sf : structfield)
    (h : parseField f = .ok (some sf)) :
    isSupportedType sf.Typ true = true ∧ sf.FieldName = f.name := by
  unfold parseField at h
  by_cases htag : f.tag = []
  · rw [if_pos htag] at h
    have := buildField_ok_some f f.name false (some f.typ) sf h
    exact ⟨this.1, this.2.1⟩
  · rw [if_neg htag] at h
    by_cases hdash : tagGet f.tag
        (if (wssplit f.tag).any (fun tg => hasPre (gs "urlenc:") tg) then gs "urlenc"
         else if (wssplit f.tag).any (fun tg => hasPre (gs "json:") tg) then gs "json"
         else []) = gs "-"
    · rw [if_pos hdash] at h
      cases h
    · rw [if_neg hdash] at h
      have := buildField_ok_some f _ _ _ sf h
      exact ⟨this.1, this.2.1⟩

theorem getStructFields_mem (st : StructType) (fields : List structfield)
    (h : getStructFields st = .ok fields) :
    ∀ sf ∈ fields, ∃ f ∈ st, parseField f = .ok (some sf) := by
  induction st generalizing fields with
  | nil =>
    injection h with h
    subst h
    intro sf hsf
    cases hsf
  | cons f rest ih =>
    rw [getStructFields] at h
    by_cases hpkg : f.pkgPath ≠ []
    · rw [if_pos hpkg] at h
      intro sf hsf
      obtain ⟨g, hg, hp⟩ := ih fields h sf hsf
      exact ⟨g, List.mem_cons_of_mem f hg, hp⟩
    · rw [if_neg hpkg] at h
      rcases hpf : parseField f with _ | e | osf
      · rw [hpf] at h; cases h
      · rw [hpf] at h; cases h
      · rw [hpf] at h
        cases osf with
        | none =>
          intro sf hsf
          obtain ⟨g, hg, hp⟩ := ih fields h sf hsf
          exact ⟨g, List.mem_cons_of_mem f hg, hp⟩
        | some sf0 =>
          rcases hrest : getStructFields rest with _ | e | sfs
          · rw [hrest] at h; cases h
          · rw [hrest] at h; cases h
          · rw [hrest] at h
            injection h with h
            subst h
            intro sf hsf
            rcases List.mem_cons.1 hsf with rfl | hsf
            · exact ⟨f, List.mem_cons_self f rest, hpf⟩
            · obtain ⟨g, hg, hp⟩ := ih sfs hrest sf hsf
              exact ⟨g, List.mem_cons_of_mem f hg, hp⟩

theorem getStructFields_supported (st : StructType) (fields : List structfield)
    (h : getStructFields st = .ok fields) :
    ∀ sf ∈ fields, isSupportedType sf.Typ true = true := by
  intro sf hsf
  obtain ⟨f, _, hp⟩ := getStructFields_mem st fields h sf hsf
  exact (parseField_ok_some f sf hp).1

theorem WT_typeOf (t : GoType) (v : GoValue) (h : WT t v = true) :
    typeOf v = t := by
  cases t with
  | prim k => cases v <;> cases k <;> simp_all [WT, typeOf]
  | slice e => cases v <;> simp_all [WT, typeOf]

theorem WT_isEmpty_iff_zero (t : GoType) (v : GoValue) (h : WT t v = true) :
    (isEmptyValue v = true ↔ v = zeroOf t) := by
  cases t with
  | prim k =>
    cases v with
    | vstr s =>
      cases k <;> simp_all [WT, isEmptyValue, zeroOf, List.isEmpty_iff]
    | vint k2 n =>
      cases k <;> simp_all [WT, isEmptyValue, zeroOf]
    | vslice b e l => cases k <;> simp_all [WT]
  | slice e =>
    cases v with
    | vstr s => simp_all [WT]
    | vint k2 n => simp_all [WT]
    | vslice b e2 l =>
      simp only [WT, Bool.and_eq_true, beq_iff_eq, Bool.or_eq_true,
        Bool.not_eq_true', List.all_eq_true] at h
      obtain ⟨⟨he, hnil⟩, hels⟩ := h
      constructor
      · intro hb
        simp only [isEmptyValue] at hb
        subst hb
        have hl : l = [] := by
          rcases hnil with hfalse | hempty
          · exact absurd hfalse (by decide)
          · exact List.isEmpty_iff.1 hempty
        subst hl
        rw [he]
        rfl
      · intro hz
        have h0 : GoValue.vslice b e2 l = GoValue.vslice true e [] := hz
        injection h0 with h1 h2 h3

theorem convertAll_roundtrip (k : GoKind) :
    ∀ elems : List GoValue, (∀ v ∈ elems, WT (.prim k) v = true) →
    ∃ ses, convertAll elems = .ok ses ∧ (∀ s ∈ ses, ByteWF s) ∧
      convertElems (.prim k) ses = .ok elems ∧ ses.length = elems.length := by
  intro elems
  induction elems with
  | nil => exact fun _ => ⟨[], rfl, by simp, rfl, rfl⟩
  | cons v es ih =>
    intro h
    obtain ⟨s, hcs, hbw, hback⟩ := convert_roundtrip k v (h v (List.mem_cons_self v es))
    obtain ⟨ses, hca, hbws, hback2, hlen⟩ :=
      ih (fun w hw => h w (List.mem_cons_of_mem v hw))
    refine ⟨s :: ses, ?_, ?_, ?_, by simp [hlen]⟩
    · rw [convertAll, hcs, hca]
      rfl
    · intro t ht
      rcases List.mem_cons.1 ht with rfl | ht
      · exact hbw
      · exact hbws t ht
    · rw [convertElems]
      simp only [hback, hback2]
      rfl

theorem supported_slice_elem (et : GoType)
    (h : isSupportedType (.slice et) true = true) : ∃ k, et = .prim k := by
  cases et with
  | prim k => exact ⟨k, rfl⟩
  | slice e2 => simp [isSupportedType, isStringOrNumeric] at h

theorem contribOf_spec (f : structfield) (r : Record)
    (hsup : isSupportedType f.Typ true = true)
    (hwt : WT f.Typ (r f.FieldName) = true) :
    contribOk r f (contribOf r f) ∧ (∀ s ∈ contribOf r f, ByteWF s) ∧
    ((f.OmitEmpty && isEmptyValue (r f.FieldName)) = true → contribOf r f = []) ∧
    (∀ k, f.Typ = .prim k →
      (f.OmitEmpty && isEmptyValue (r f.FieldName)) = false →
      ∃ s, contribOf r f = [s] ∧
        convertFromString f.Typ s = .ok (r f.FieldName)) ∧
    (∀ et, f.Typ = .slice et →
      (f.OmitEmpty && isEmptyValue (r f.FieldName)) = false →
      ∃ b elems, r f.FieldName = .vslice b et elems ∧
        convertElems et (contribOf r f) = .ok elems ∧
        (contribOf r f).length = elems.length) := by
  by_cases hskip : (f.OmitEmpty && isEmptyValue (r f.FieldName)) = true
  · have hcf : contribOf r f = [] := by rw [contribOf, if_pos hskip]
    refine ⟨Or.inl ⟨hskip, hcf⟩, by simp [hcf], fun _ => hcf, ?_, ?_⟩
    · intro k _ hno; rw [hno] at hskip; cases hskip
    · intro et _ hno; rw [hno] at hskip; cases hskip
  · have hskipf : (f.OmitEmpty && isEmptyValue (r f.FieldName)) = false :=
      Bool.eq_false_iff.2 hskip
    cases hty : f.Typ with
    | prim k =>
      have hwt2 : WT (.prim k) (r f.FieldName) = true := hty ▸ hwt
      obtain ⟨s, hcs, hbw, hback⟩ := convert_roundtrip k (r f.FieldName) hwt2
      have hnum : isStringOrNumeric f.Typ = true := by rw [hty]; rfl
      have hcf : contribOf r f = [s] := by
        rw [contribOf, if_neg hskip, if_pos hnum, hcs]
      refine ⟨Or.inr ⟨hskipf, Or.inl ⟨hnum, s, hcs, hcf⟩⟩, ?_, ?_, ?_, ?_⟩
      · intro t ht
        rw [hcf] at ht
        rcases List.mem_singleton.1 ht with rfl
        exact hbw
      · intro hc; exact absurd hc hskip
      · intro k2 _ _
        exact ⟨s, hcf, hty ▸ hback⟩
      · intro et het _
        exact absurd het (by simp)
    | slice et =>
      obtain ⟨k2, hk2⟩ := supported_slice_elem et (hty ▸ hsup)
      have hwt2 : WT (.slice et) (r f.FieldName) = true := hty ▸ hwt
      have hnum : isStringOrNumeric f.Typ = false := by rw [hty]; rfl
      rcases hfv : r f.FieldName with s | ⟨k3, n⟩ | ⟨b, et2, elems⟩
      · rw [hfv] at hwt2; exact absurd hwt2 Bool.false_ne_true
      · rw [hfv] at hwt2; exact absurd hwt2 Bool.false_ne_true
      · have het2 : et2 = et := by
          rw [hfv] at hwt2
          simp only [WT, Bool.and_eq_true, beq_iff_eq] at hwt2
          exact hwt2.1.1
        subst het2
        have hels : ∀ v ∈ elems, WT (.prim k2) v = true := by
          rw [hfv] at hwt2
          simp only [WT, Bool.and_eq_true, beq_iff_eq, List.all_eq_true] at hwt2
          intro v hv
          exact hk2 ▸ hwt2.2 v hv
        obtain ⟨ses, hca, hbws, hback, hlen⟩ := convertAll_roundtrip k2 elems hels
        have hcf : contribOf r f = ses := by
          rw [contribOf, if_neg hskip, if_neg (by rw [hnum]; exact Bool.false_ne_true),
            hfv]
          simp only [hca]
        have hca2 : convertAll elems = Except.ok (contribOf r f) := hcf ▸ hca
        refine ⟨Or.inr ⟨hskipf, Or.inr ⟨hnum, b, et2, elems, hfv, hca2⟩⟩, ?_, ?_, ?_, ?_⟩
        · intro t ht; exact hbws t (hcf ▸ ht)
        · intro hc
          exact absurd (by rw [hfv]; exact hc) hskip
        · intro k4 hk4 _
          exact absurd hk4 (by simp)
        · intro et3 het3 _
          have he3 : et3 = et2 := by injection het3 with h0; exact h0.symm
          subst he3
          refine ⟨b, elems, rfl, ?_, hcf ▸ hlen⟩
          rw [hcf, hk2]
          exact hback

theorem marshal_master (st : StructType) (fields : List structfield)
    (r : Record) (hsf : getStructFields st = .ok fields)
    (hknd : (fields.map structfield.KeyName).Nodup)
    (hwtf : ∀ f ∈ fields, WT f.Typ (r f.FieldName) = true)
    (hkeys : ∀ f ∈ fields, ByteWF f.KeyName) :
    marshalStruct st r = .ok (encodeValues (uvOf fields r)) ∧
    ValuesWF (uvOf fields r) ∧
    (∀ f ∈ fields, (valuesGet (uvOf fields r) f.KeyName).getD [] = contribOf r f) ∧
    (∀ f ∈ fields, (valuesGet (uvOf fields r) f.KeyName = none ↔ contribOf r f = [])) := by
  have hspec := fun f hf => contribOf_spec f r
    (getStructFields_supported st fields hsf f hf) (hwtf f hf)
  have hmf := marshalStructFields_ok r (contribOf r) fields
    (fun f hf => (hspec f hf).1) []
  have hmv : marshalStructValues st r = .ok (uvOf fields r) := by
    rw [marshalStructValues, hsf]
    exact hmf
  have hms : marshalStruct st r = .ok (encodeValues (uvOf fields r)) := by
    rw [marshalStruct, hmv]
  have hwf : ValuesWF (uvOf fields r) :=
    fieldsFold_wf (contribOf r) fields [] (by simp) (fun p hp => absurd hp (by simp))
      hkeys (fun f hf => (hspec f hf).2.1)
  refine ⟨hms, hwf, ?_, ?_⟩
  · intro f hf
    rw [uvOf, fieldsFold_get_mem (contribOf r) f fields hf hknd []]
    by_cases hc : contribOf r f = []
    · simp [hc, valuesGet]
    · simp [hc, valuesGet]
  · intro f hf
    rw [uvOf, fieldsFold_get_mem (contribOf r) f fields hf hknd []]
    by_cases hc : contribOf r f = []
    · simp [hc, valuesGet]
    · simp [hc, valuesGet]

theorem mem_pairsOf_keys (uv : Values) (k : GoStr) :
    k ∈ (pairsOf uv).map Prod.fst ↔
      (valuesGet uv k).getD [] ≠ [] ∧ k ∈ uv.map Prod.fst := by
  have hperm := List.perm_insertionSort (· ≤ ·) (uv.map Prod.fst)
  unfold pairsOf
  rw [List.map_flatMap]
  constructor
  · intro h
    rw [List.mem_flatMap] at h
    obtain ⟨k2, hk2, hmem⟩ := h
    rw [List.map_map, List.mem_map] at hmem
    obtain ⟨v, hv, heq⟩ := hmem
    have hkk : k = k2 := by simpa using heq.symm
    subst hkk
    refine ⟨fun hnil => ?_, hperm.mem_iff.1 hk2⟩
    rw [hnil] at hv
    cases hv
  · intro ⟨hne, hmem⟩
    rw [List.mem_flatMap]
    rcases hvs : (valuesGet uv k).getD [] with _ | ⟨v, vs⟩
    · exact absurd hvs hne
    · refine ⟨k, hperm.mem_iff.2 hmem, ?_⟩
      rw [List.map_map, hvs, List.mem_map]
      exact ⟨v, List.mem_cons_self v vs, rfl⟩

theorem skip_false_of_omit (fields : List structfield) (r : Record)
    (hwtf : ∀ f ∈ fields, WT f.Typ (r f.FieldName) = true)
    (homit : ∀ f ∈ fields, f.OmitEmpty = true → r f.FieldName ≠ zeroOf f.Typ) :
    ∀ f ∈ fields, (f.OmitEmpty && isEmptyValue (r f.FieldName)) = false := by
  intro f hf
  cases hOE : f.OmitEmpty with
  | false => simp
  | true =>
    have hz := homit f hf hOE
    have hiff := WT_isEmpty_iff_zero f.Typ (r f.FieldName) (hwtf f hf)
    have : isEmptyValue (r f.FieldName) = false := by
      cases hie : isEmptyValue (r f.FieldName) with
      | false => rfl
      | true => exact absurd (hiff.1 hie) hz
    simp [this]

theorem c1_field_svFor (st : StructType) (fields : List structfield)
    (r : Record) (hsf : getStructFields st = .ok fields)
    (hwtf : ∀ f ∈ fields, WT f.Typ (r f.FieldName) = true)
    (hsk : ∀ f ∈ fields, (f.OmitEmpty && isEmptyValue (r f.FieldName)) = false)
    (f : structfield) (hf : f ∈ fields) (v0 : GoStr) (vrest : List GoStr)
    (hvals : contribOf r f = v0 :: vrest) :
    svFor f (v0 :: vrest) = .ok (r f.FieldName) := by
  have hspec := contribOf_spec f r
    (getStructFields_supported st fields hsf f hf) (hwtf f hf)
  cases hty : f.Typ with
  | prim k =>
    obtain ⟨s, hcs, hback⟩ := hspec.2.2.2.1 k hty (hsk f hf)
    rw [hvals] at hcs
    injection hcs with h1 h2
    have hred : svFor f (v0 :: vrest) = convertFromString f.Typ v0 := by
      rw [svFor.eq_def, hty]
      rfl
    rw [hred, h1, hback]
  | slice et =>
    obtain ⟨b, elems, hfv, hconv, hlen⟩ := hspec.2.2.2.2 et hty (hsk f hf)
    rw [hvals] at hconv hlen
    have hred : svFor f (v0 :: vrest) =
        match convertElems et (v0 :: vrest) with
        | .error e => .error e
        | .ok es => .ok (.vslice false et es) := by
      rw [svFor.eq_def, hty]
    rw [hred]
    simp only [hconv]
    have hbne : elems ≠ [] := by
      intro hnil
      rw [hnil] at hlen
      cases hlen
    have hbf : b = false := by
      have hwt2 := hwtf f hf
      rw [hty, hfv] at hwt2
      simp only [WT, Bool.and_eq_true, Bool.or_eq_true, beq_iff_eq,
        Bool.not_eq_true', List.all_eq_true] at hwt2
      rcases hwt2.1.2 with hb | hempty
      · exact hb
      · exact absurd (List.isEmpty_iff.1 hempty) hbne
    rw [hfv, hbf]

/-- **C1** (amended).  Round-trip: for a schema-compatible struct type whose
exposed keys are pairwise distinct, whose registered types match the declared
field types (no pretend overrides), and a well-typed record value in which no
omit-empty field holds its zero value and no list field holds a non-nil empty
list, encoding and then decoding into a fresh zero record reproduces every
schema field's value. -/
theorem c1_roundtrip_amended (st : StructType) (fields : List structfield)
    (r : Record) (hsf : getStructFields st = .ok fields)
    (hknd : (fields.map structfield.KeyName).Nodup)
    (hfnd : (fields.map structfield.FieldName).Nodup)
    (hdecl : ∀ f ∈ fields, lookupFieldType st f.FieldName = some f.Typ)
    (hwtf : ∀ f ∈ fields, WT f.Typ (r f.FieldName) = true)
    (hkeys : ∀ f ∈ fields, ByteWF f.KeyName)
    (homit : ∀ f ∈ fields, f.OmitEmpty = true → r f.FieldName ≠ zeroOf f.Typ)
    (hnoempty : ∀ f ∈ fields, ∀ et, r f.FieldName ≠ .vslice false et []) :
    ∃ out r2, marshalStruct st r = .ok out ∧
      unmarshalStruct st out (zeroRecord st) = .done r2 none ∧
      ∀ f ∈ fields, r2 f.FieldName = r f.FieldName := by
  obtain ⟨hms, hwf, hget, hnone⟩ := marshal_master st fields r hsf hknd hwtf hkeys
  have hsk := skip_false_of_omit fields r hwtf homit
  have hpq : parseQuery (encodeValues (uvOf fields r)) =
      .ok (pairsFold (pairsOf (uvOf fields r)) []) :=
    parseQuery_encodeValues (uvOf fields r) hwf
  set uv := uvOf fields r with huv
  set q := pairsFold (pairsOf uv) [] with hq
  have hqget : ∀ k, valuesGet q k = valuesGet uv k :=
    valuesGet_parse_encode uv hwf
  have hvals : ∀ f ∈ fields, (valuesGet q f.KeyName).getD [] = contribOf r f := by
    intro f hf
    rw [hqget f.KeyName]
    exact hget f hf
  have hallok : ∀ f ∈ fields, ∀ v0 vrest,
      (valuesGet q f.KeyName).getD [] = v0 :: vrest →
      ∃ sv, svFor f (v0 :: vrest) = .ok sv ∧
        lookupFieldType st f.FieldName = some (typeOf sv) := by
    intro f hf v0 vrest hv
    rw [hvals f hf] at hv
    refine ⟨r f.FieldName, c1_field_svFor st fields r hsf hwtf hsk f hf v0 vrest hv, ?_⟩
    rw [WT_typeOf f.Typ (r f.FieldName) (hwtf f hf)]
    exact hdecl f hf
  obtain ⟨r2, hr2⟩ := decodeFields_all_ok q st fields hallok (zeroRecord st)
  have hdec : unmarshalStruct st (encodeValues uv) (zeroRecord st) =
      .done r2 none := by
    rw [unmarshalStruct, hsf, hpq]
    exact hr2
  refine ⟨encodeValues uv, r2, hms, hdec, ?_⟩
  intro f hf
  rcases hcf : contribOf r f with _ | ⟨v0, vrest⟩
  · have hvnil : (valuesGet q f.KeyName).getD [] = [] := by
      rw [hvals f hf, hcf]
    have hfr := decodeFields_frame q st fields f.FieldName
      (fun g hg heq => by
        have hgf : g = f := List.inj_on_of_nodup_map hfnd hg hf heq
        rw [hgf]
        exact hvnil)
      (zeroRecord st) r2 none hr2
    rw [hfr]
    have hspec := contribOf_spec f r
      (getStructFields_supported st fields hsf f hf) (hwtf f hf)
    cases hty : f.Typ with
    | prim k =>
      obtain ⟨s, hcs, _⟩ := hspec.2.2.2.1 k hty (hsk f hf)
      rw [hcf] at hcs
      cases hcs
    | slice et =>
      obtain ⟨b, elems, hfv, hconv, hlen⟩ := hspec.2.2.2.2 et hty (hsk f hf)
      rw [hcf] at hlen
      have helems : elems = [] := by
        cases elems with
        | nil => rfl
        | cons x xs => cases hlen
      subst helems
      have hb : b = true := by
        cases b with
        | true => rfl
        | false => exact absurd hfv (hnoempty f hf et)
      rw [zeroRecord, hdecl f hf, hfv, hb, hty]
      rfl
  · obtain ⟨sv, hsv, hval⟩ := decodeFields_ok_mem q st fields hfnd f hf v0 vrest
      (by rw [hvals f hf, hcf]) (zeroRecord st) r2 hr2
    have hsv2 := c1_field_svFor st fields r hsf hwtf hsk f hf v0 vrest hcf
    rw [hsv] at hsv2
    injection hsv2 with hsv2
    rw [hval, hsv2]

/-! ## Claim theorems -/

/-- C2: for a field whose annotation is present but empty (`urlenc:""`), the
source's comment says the field name is used as the key, and the field is
indeed included with no omission and no type override — but the final
`keyname = TrimSpace(parts[0])` assignment overwrites the earlier
`keyname = f.Name` fallback, so the exposed key is the empty string, not the
field's name.  This theorem evaluates schema construction at that failing
input, exhibiting the divergence between the code and its own documented
intent. -/
theorem c2_empty_annotation_key_is_empty :
    getStructFields [⟨gs "Foo", [], gs "urlenc:\"\"", .prim .kstring⟩] =
      .ok [⟨gs "Foo", [], false, .prim .kstring⟩] ∧
    ([] : GoStr) ≠ gs "Foo" := by
  constructor
  · rfl
  · decide

/-- C3 (counterexample): the claim says an exported field carrying no
recognized annotation vocabulary is skipped; the code instead includes it —
under its own name when there is no tag at all, and under the empty key when
a tag exists but holds no recognized vocabulary (`xml:"a"`). -/
theorem c3_counterexample :
    getStructFields [⟨gs "Foo", [], [], .prim .kstring⟩] =
      .ok [⟨gs "Foo", gs "Foo", false, .prim .kstring⟩] ∧
    getStructFields [⟨gs "Foo", [], gs "xml:\"a\"", .prim .kstring⟩] =
      .ok [⟨gs "Foo", [], false, .prim .kstring⟩] := by
  constructor
  · rfl
  · rfl

/-- C3 (amended): an exported field with no annotation text at all is not
skipped: whenever schema construction succeeds, it is included with its
exposed key equal to the field's own name, no omission and no type
override. -/
theorem c3_amended_no_tag_included (st : StructType) :
    ∀ (fields : List structfield) (f : GoField), f ∈ st → f.pkgPath = [] →
    f.tag = [] → getStructFields st = .ok fields →
    ∃ sf ∈ fields, sf.FieldName = f.name ∧ sf.KeyName = f.name ∧
      sf.OmitEmpty = false ∧ sf.Typ = f.typ := by
  induction st with
  | nil =>
    intro fields f hf
    cases hf
  | cons g rest ih =>
    intro fields f hf hexp htag hok
    rw [getStructFields] at hok
    rcases List.mem_cons.1 hf with rfl | hfm
    · rw [if_neg (by simp [hexp])] at hok
      have hpf : parseField f = buildField f f.name false (some f.typ) := by
        rw [parseField, if_pos htag]
      rw [hpf] at hok
      rcases hb : buildField f f.name false (some f.typ) with _ | e | osf
      · rw [hb] at hok; cases hok
      · rw [hb] at hok; cases hok
      · rw [hb] at hok
        cases osf with
        | none =>
          simp only [buildField] at hb
          by_cases hsup : !isSupportedType f.typ true
          · rw [if_pos hsup] at hb; cases hb
          · rw [if_neg hsup] at hb
            injection hb with hb
            cases hb
        | some sf0 =>
          obtain ⟨hsup, hname, hkey, hom, hoft⟩ :=
            buildField_ok_some f f.name false (some f.typ) sf0 hb
          rcases hrest : getStructFields rest with _ | e | sfs
          · rw [hrest] at hok; cases hok
          · rw [hrest] at hok; cases hok
          · rw [hrest] at hok
            injection hok with hok
            subst hok
            refine ⟨sf0, List.mem_cons_self sf0 sfs, hname, hkey, hom, ?_⟩
            injection hoft with hoft
            exact hoft.symm
    · by_cases hpkg : g.pkgPath ≠ []
      · rw [if_pos hpkg] at hok
        exact ih fields f hfm hexp htag hok
      · rw [if_neg hpkg] at hok
        rcases hpf : parseField g with _ | e | osf
        · rw [hpf] at hok; cases hok
        · rw [hpf] at hok; cases hok
        · rw [hpf] at hok
          cases osf with
          | none => exact ih fields f hfm hexp htag hok
          | some sf0 =>
            rcases hrest : getStructFields rest with _ | e | sfs
            · rw [hrest] at hok; cases hok
            · rw [hrest] at hok; cases hok
            · rw [hrest] at hok
              injection hok with hok
              subst hok
              obtain ⟨sf, hsf, hprops⟩ := ih sfs f hfm hexp htag hrest
              exact ⟨sf, List.mem_cons_of_mem sf0 hsf, hprops⟩

/-- Witness for the amended C3 at a concrete one-field struct. -/
theorem c3_amended_no_tag_included_witness :
    ∃ sf ∈ [(⟨gs "Foo", gs "Foo", false, .prim .kstring⟩ : structfield)],
      sf.FieldName = gs "Foo" ∧ sf.KeyName = gs "Foo" ∧
      sf.OmitEmpty = false ∧ sf.Typ = .prim .kstring :=
  c3_amended_no_tag_included [⟨gs "Foo", [], [], .prim .kstring⟩]
    [⟨gs "Foo", gs "Foo", false, .prim .kstring⟩]
    ⟨gs "Foo", [], [], .prim .kstring⟩ (by decide) rfl rfl (by rfl)

/-- C4: the claim says an unrecognized pretend-type in an annotation makes
every Encode/Decode return a schema error; in the code the `err` checked
after `nameToType` is never assigned, so the nil type reaches
`isSupportedType`, whose method call on a nil `reflect.Type` panics.  Both
entry points crash instead of returning an error at this input — the code
contradicts its own evident error-handling intent. -/
theorem c4_unrecognized_pretend_type_panics :
    getStructFields [⟨gs "Foo", [], gs "urlenc:\"foo,omitempty,bogus\"",
      .prim .kstring⟩] = .crash ∧
    Marshal (.strct [⟨gs "Foo", [], gs "urlenc:\"foo,omitempty,bogus\"",
      .prim .kstring⟩] (fun _ => .vstr [])) = .crash ∧
    Unmarshal (gs "foo=x") (.strct [⟨gs "Foo", [],
      gs "urlenc:\"foo,omitempty,bogus\"", .prim .kstring⟩]
      (fun _ => .vstr [])) = .crash := by
  exact ⟨rfl, rfl, rfl⟩

/-- C9: a value whose type implements the whole-value self-encode capability
is encoded as exactly that capability's result, and a target implementing
self-decode is deferred to entirely — the schema engine is never consulted,
for every underlying struct shape `st`/`r`, including ones whose fields
would fail classification (the equations below hold for all of them, and the
last conjunct states the result does not depend on the carried shape at
all). -/
theorem c9_whole_value_override (out : Except String GoStr) (st st2 : StructType)
    (r r2 : Record) (data : GoStr) (res : Option String) :
    Marshal (.marshaler out st r) =
      (match out with | .ok bs => .ok bs | .error e => .fails e) ∧
    Unmarshal data (.unmarshaler res) =
      (match res with | none => .ok (.unmarshaler res) | some e => .fails e) ∧
    Marshal (.marshaler out st r) = Marshal (.marshaler out st2 r2) := by
  exact ⟨rfl, rfl, rfl⟩

/-- C7: decoding into a string-keyed map stores, for every parsed key, the
single string when exactly one value was present and the full ordered string
list when more than one; the stored values are built from `GoValue.vstr`
text only — nothing is coerced to a number or boolean. -/
theorem c7_map_decode (data : GoStr) (m m2 : MapRec) (q : Values)
    (hq : parseQuery data = .ok q)
    (hok : unmarshalMap data m = .ok m2) :
    ∀ k vs, valuesGet q k = some vs →
      (vs.length = 1 → ∃ v, vs = [v] ∧ mapGet m2 k = some (.vstr v)) ∧
      (1 < vs.length →
        mapGet m2 k = some (.vslice false (.prim .kstring)
          (vs.map GoValue.vstr))) := by
  have hnd := parseQuery_keys_nodup data q hq
  rw [unmarshalMap, hq] at hok
  injection hok with hok
  subst hok
  intro k vs hk
  have hfold := mapGet_decode_fold q m k vs hnd hk
  constructor
  · intro hlen
    rcases vs with _ | ⟨v, rest⟩
    · simp at hlen
    · rcases rest with _ | ⟨v2, rest2⟩
      · exact ⟨v, rfl, by rw [hfold]; rfl⟩
      · simp at hlen
  · intro hlen
    rcases vs with _ | ⟨v, rest⟩
    · simp at hlen
    · rcases rest with _ | ⟨v2, rest2⟩
      · simp at hlen
      · rw [hfold]
        rfl

/-- Concrete witness for C7 on `baz=2&qux=a&qux=b`: `baz` decodes to the
text `"2"` (not a number), `qux` to the ordered string list. -/
theorem c7_map_decode_witness :
    (∃ v, [gs "2"] = [v] ∧
      mapGet [(gs "baz", .vstr (gs "2")),
        (gs "qux", .vslice false (.prim .kstring)
          [.vstr (gs "a"), .vstr (gs "b")])] (gs "baz") = some (.vstr v)) ∧
    mapGet [(gs "baz", .vstr (gs "2")),
        (gs "qux", .vslice false (.prim .kstring)
          [.vstr (gs "a"), .vstr (gs "b")])] (gs "qux") =
      some (.vslice false (.prim .kstring) ([gs "a", gs "b"].map GoValue.vstr)) :=
  ⟨(c7_map_decode (gs "baz=2&qux=a&qux=b") []
      [(gs "baz", .vstr (gs "2")),
        (gs "qux", .vslice false (.prim .kstring)
          [.vstr (gs "a"), .vstr (gs "b")])]
      [(gs "baz", [gs "2"]), (gs "qux", [gs "a", gs "b"])]
      (by decide) (by decide) (gs "baz") [gs "2"] (by decide)).1 (by decide),
   (c7_map_decode (gs "baz=2&qux=a&qux=b") []
      [(gs "baz", .vstr (gs "2")),
        (gs "qux", .vslice false (.prim .kstring)
          [.vstr (gs "a"), .vstr (gs "b")])]
      [(gs "baz", [gs "2"]), (gs "qux", [gs "a", gs "b"])]
      (by decide) (by decide) (gs "qux") [gs "a", gs "b"] (by decide)).2 (by decide)⟩

/-- C8: a schema field whose exposed key is absent from the parsed input is
left with exactly the value it held before the call, whatever the initial
record and even when the decode as a whole returns an error. -/
theorem c8_absent_key_leaves_field (st : StructType) (data : GoStr)
    (fields : List structfield) (q : Values) (r r2 : Record)
    (f : structfield) (e : Option String)
    (hsf : getStructFields st = .ok fields) (hq : parseQuery data = .ok q)
    (hfnd : (fields.map structfield.FieldName).Nodup) (hf : f ∈ fields)
    (habs : (valuesGet q f.KeyName).getD [] = [])
    (hd : unmarshalStruct st data r = .done r2 e) :
    r2 f.FieldName = r f.FieldName := by
  rw [unmarshalStruct, hsf, hq] at hd
  exact decodeFields_frame q st fields f.FieldName
    (fun g hg heq => by
      rw [List.inj_on_of_nodup_map hfnd hg hf heq]
      exact habs) r r2 e hd

/-- Concrete witness for C8: decoding `a=x` into a record whose `B` field
holds `"keep"` sets `A` and leaves `B` exactly as it was. -/
theorem c8_absent_key_leaves_field_witness :
    (setField (fun n => if n = gs "B" then .vstr (gs "keep") else .vstr [])
        (gs "A") (.vstr (gs "x"))) (gs "B") =
      (fun n : GoStr => if n = gs "B" then GoValue.vstr (gs "keep")
        else .vstr []) (gs "B") :=
  c8_absent_key_leaves_field
    [⟨gs "A", [], gs "urlenc:\"a\"", .prim .kstring⟩,
     ⟨gs "B", [], gs "urlenc:\"b\"", .prim .kstring⟩]
    (gs "a=x")
    [⟨gs "A", gs "a", false, .prim .kstring⟩,
     ⟨gs "B", gs "b", false, .prim .kstring⟩]
    [(gs "a", [gs "x"])]
    (fun n => if n = gs "B" then .vstr (gs "keep") else .vstr [])
    (setField (fun n => if n = gs "B" then .vstr (gs "keep") else .vstr [])
      (gs "A") (.vstr (gs "x")))
    ⟨gs "B", gs "b", false, .prim .kstring⟩ none
    (by decide) (by decide) (by decide) (by decide) (by decide) (by rfl)

/-- C6: when decoding a record, a slice-typed schema field whose key is
present is set to a freshly built slice of all values converted in input
order, a conversion failure of any element aborts the whole decode with that
error (given that the fields before it decode cleanly), and a scalar-typed
field is set from the first value only, later duplicates being ignored. -/
theorem c6_present_key_decodes (st : StructType) (data : GoStr)
    (fields pre post : List structfield) (q : Values) (f : structfield)
    (vs : List GoStr) (v0 : GoStr) (vrest : List GoStr)
    (hsf : getStructFields st = .ok fields) (hq : parseQuery data = .ok q)
    (hsplit : fields = pre ++ f :: post)
    (hfnd : (fields.map structfield.FieldName).Nodup)
    (hvs : valuesGet q f.KeyName = some vs) (hcons : vs = v0 :: vrest) :
    (∀ r r2 et es, f.Typ = .slice et → convertElems et vs = .ok es →
      unmarshalStruct st data r = .done r2 none →
      r2 f.FieldName = .vslice false et es) ∧
    (∀ r r2 k sv, f.Typ = .prim k → convertFromString f.Typ v0 = .ok sv →
      unmarshalStruct st data r = .done r2 none → r2 f.FieldName = sv) ∧
    (∀ et e, f.Typ = .slice et → convertElems et vs = .error e →
      (∀ g ∈ pre, ∀ w0 wrest, (valuesGet q g.KeyName).getD [] = w0 :: wrest →
        ∃ sv, svFor g (w0 :: wrest) = .ok sv ∧
          lookupFieldType st g.FieldName = some (typeOf sv)) →
      ∀ r, ∃ r1, unmarshalStruct st data r = .done r1 (some e)) := by
  subst hcons
  have hf : f ∈ fields := by
    rw [hsplit]
    exact List.mem_append_right pre (List.mem_cons_self f post)
  have hgetd : (valuesGet q f.KeyName).getD [] = v0 :: vrest := by
    rw [hvs]
    rfl
  refine ⟨?_, ?_, ?_⟩
  · intro r r2 et es hty hce hd
    rw [unmarshalStruct, hsf, hq] at hd
    obtain ⟨sv, hsv, hval⟩ :=
      decodeFields_ok_mem q st fields hfnd f hf v0 vrest hgetd r r2 hd
    have hcomp : svFor f (v0 :: vrest) = .ok (.vslice false et es) := by
      rw [svFor.eq_def, hty]
      simp only [hce]
    rw [hcomp] at hsv
    injection hsv with hsv
    rw [hval, ← hsv]
  · intro r r2 k sv hty hconv hd
    rw [unmarshalStruct, hsf, hq] at hd
    obtain ⟨sv2, hsv, hval⟩ :=
      decodeFields_ok_mem q st fields hfnd f hf v0 vrest hgetd r r2 hd
    have hcomp : svFor f (v0 :: vrest) = convertFromString f.Typ v0 := by
      rw [svFor.eq_def, hty]
      rfl
    rw [hcomp, hconv] at hsv
    injection hsv with hsv
    rw [hval, ← hsv]
  · intro et e hty hce hpre r
    obtain ⟨r1, hr1⟩ := decodeFields_all_ok q st pre hpre r
    have happ := decodeFields_append_ok q st pre (f :: post) r r1 hr1
    have herr : svFor f (v0 :: vrest) = .error e := by
      rw [svFor.eq_def, hty]
      simp only [hce]
    refine ⟨r1, ?_⟩
    rw [unmarshalStruct, hsf, hq]
    show decodeFields q st fields r = DecRes.done r1 (some e)
    rw [hsplit, happ,
      decodeFields_cons_err q st f post r1 v0 vrest e hgetd herr]

/-- Concrete witness for C6: decoding `bar=one&bar=two&qux=three&qux=4` into
a fresh `Foo` takes `"one"` (the first value) for the scalar `bar`, ignoring
the duplicate, and the full ordered list for `qux`; decoding `xs=1&xs=oops`
into a `[]int` field aborts with the element's conversion error. -/
theorem c6_present_key_decodes_witness :
    (setField (setField (zeroRecord fooT) (gs "Bar") (.vstr (gs "one")))
        (gs "Qux") (.vslice false (.prim .kstring)
          [.vstr (gs "three"), .vstr (gs "4")])) (gs "Bar") = .vstr (gs "one") ∧
    (setField (setField (zeroRecord fooT) (gs "Bar") (.vstr (gs "one")))
        (gs "Qux") (.vslice false (.prim .kstring)
          [.vstr (gs "three"), .vstr (gs "4")])) (gs "Qux") =
      .vslice false (.prim .kstring) [.vstr (gs "three"), .vstr (gs "4")] ∧
    ∃ r1, unmarshalStruct intSliceT (gs "xs=1&xs=oops") (fun _ => .vstr []) =
      .done r1 (some "strconv.ParseInt: invalid syntax") :=
  ⟨(c6_present_key_decodes fooT (gs "bar=one&bar=two&qux=three&qux=4")
      fooFields [] [⟨gs "Baz", gs "baz", false, .prim .kint⟩,
        ⟨gs "Qux", gs "qux", false, .slice (.prim .kstring)⟩]
      [(gs "bar", [gs "one", gs "two"]), (gs "qux", [gs "three", gs "4"])]
      ⟨gs "Bar", gs "bar", false, .prim .kstring⟩
      [gs "one", gs "two"] (gs "one") [gs "two"]
      (by decide) (by decide) (by decide) (by decide) (by decide) rfl).2.1
      (zeroRecord fooT) _ .kstring (.vstr (gs "one")) rfl (by decide) (by rfl),
   (c6_present_key_decodes fooT (gs "bar=one&bar=two&qux=three&qux=4")
      fooFields [⟨gs "Bar", gs "bar", false, .prim .kstring⟩,
        ⟨gs "Baz", gs "baz", false, .prim .kint⟩] []
      [(gs "bar", [gs "one", gs "two"]), (gs "qux", [gs "three", gs "4"])]
      ⟨gs "Qux", gs "qux", false, .slice (.prim .kstring)⟩
      [gs "three", gs "4"] (gs "three") [gs "4"]
      (by decide) (by decide) (by decide) (by decide) (by decide) rfl).1
      (zeroRecord fooT) _ (.prim .kstring)
      [.vstr (gs "three"), .vstr (gs "4")] rfl (by decide) (by rfl),
   (c6_present_key_decodes intSliceT (gs "xs=1&xs=oops")
      [⟨gs "Xs", gs "xs", false, .slice (.prim .kint)⟩] [] []
      [(gs "xs", [gs "1", gs "oops"])]
      ⟨gs "Xs", gs "xs", false, .slice (.prim .kint)⟩
      [gs "1", gs "oops"] (gs "1") [gs "oops"]
      (by decide) (by decide) (by decide) (by decide) (by decide) rfl).2.2
      (.prim .kint) "strconv.ParseInt: invalid syntax" rfl (by decide)
      (fun g hg => absurd hg (List.not_mem_nil g)) (fun _ => .vstr [])⟩

/-- C5 counterexample: (1) a non-nil empty `[]string` field annotated
omitempty is a non-zero value (its zero is the nil slice), yet the encoded
text contains no occurrence of its key, because the slice contributes no
pairs; (2) with two fields exposed under the same key `k`, the first zero
and annotated omitempty, the second non-zero, the encoded text does contain
an occurrence of the omitted field's key. -/
theorem c5_counterexample :
    (marshalStruct
        [⟨gs "Qux", [], gs "urlenc:\"qux,omitempty\"", .slice (.prim .kstring)⟩]
        (fun _ => .vslice false (.prim .kstring) []) = .ok (gs "") ∧
      (GoValue.vslice false (.prim .kstring) [] : GoValue) ≠
        zeroOf (.slice (.prim .kstring)) ∧
      gs "qux" ∉ (queryPairs (gs "")).map Prod.fst) ∧
    (marshalStruct
        [⟨gs "A", [], gs "urlenc:\"k,omitempty\"", .prim .kstring⟩,
         ⟨gs "B", [], gs "urlenc:\"k\"", .prim .kstring⟩]
        (fun n => if n = gs "B" then .vstr (gs "x") else .vstr []) =
          .ok (gs "k=x") ∧
      (fun n => if n = gs "B" then GoValue.vstr (gs "x") else .vstr [])
          (gs "A") = zeroOf (.prim .kstring) ∧
      gs "k" ∈ (queryPairs (gs "k=x")).map Prod.fst) := by
  decide

/-- C5 (amended): for a well-typed record whose schema has pairwise distinct
exposed keys, a field annotated omitempty whose value is its type's zero
contributes no occurrence of its key to the encoded text; if its value is
non-zero AND is not a non-nil empty slice, the encoded text includes the
key. -/
theorem c5_omitempty_amended (st : StructType) (fields : List structfield)
    (r : Record) (f : structfield) (out : GoStr)
    (hsf : getStructFields st = .ok fields)
    (hknd : (fields.map structfield.KeyName).Nodup)
    (hwtf : ∀ g ∈ fields, WT g.Typ (r g.FieldName) = true)
    (hkeys : ∀ g ∈ fields, ByteWF g.KeyName)
    (hf : f ∈ fields) (hOE : f.OmitEmpty = true)
    (hout : marshalStruct st r = .ok out) :
    (r f.FieldName = zeroOf f.Typ →
      f.KeyName ∉ (queryPairs out).map Prod.fst) ∧
    (r f.FieldName ≠ zeroOf f.Typ →
      (∀ et, r f.FieldName ≠ .vslice false et []) →
      f.KeyName ∈ (queryPairs out).map Prod.fst) := by
  obtain ⟨hms, hwf, hget, hnone⟩ := marshal_master st fields r hsf hknd hwtf hkeys
  rw [hms] at hout
  injection hout with hout
  subst hout
  rw [queryPairs_encodeValues _ hwf]
  have hsup := getStructFields_supported st fields hsf f hf
  have hwt := hwtf f hf
  constructor
  · intro hz
    rw [mem_pairsOf_keys]
    intro ⟨hne, _⟩
    apply hne
    rw [hget f hf]
    have hie : isEmptyValue (r f.FieldName) = true :=
      (WT_isEmpty_iff_zero f.Typ _ hwt).2 hz
    exact (contribOf_spec f r hsup hwt).2.2.1 (by rw [hOE, hie]; rfl)
  · intro hz hslice
    rw [mem_pairsOf_keys]
    have hie : isEmptyValue (r f.FieldName) = false := by
      cases hie : isEmptyValue (r f.FieldName) with
      | false => rfl
      | true => exact absurd ((WT_isEmpty_iff_zero f.Typ _ hwt).1 hie) hz
    have hskipf : (f.OmitEmpty && isEmptyValue (r f.FieldName)) = false := by
      rw [hie]
      simp
    have hcne : contribOf r f ≠ [] := by
      cases hty : f.Typ with
      | prim k =>
        obtain ⟨s, hcf, _⟩ :=
          (contribOf_spec f r hsup hwt).2.2.2.1 k hty hskipf
        rw [hcf]
        simp
      | slice et =>
        obtain ⟨b, elems, hfv, hconv, hlen⟩ :=
          (contribOf_spec f r hsup hwt).2.2.2.2 et hty hskipf
        have hene : elems ≠ [] := by
          intro he
          subst he
          cases b with
          | false => exact hslice et hfv
          | true =>
            apply hz
            rw [hfv, hty]
            rfl
        intro hc
        rw [hc, List.length_nil] at hlen
        exact hene (List.length_eq_zero.1 hlen.symm)
    refine ⟨by rw [hget f hf]; exact hcne, ?_⟩
    by_contra hmem
    exact hcne ((hnone f hf).1 (valuesGet_none_of_not_mem (uvOf fields r)
      f.KeyName hmem))

/-- Concrete witness for the amended C5: in a two-field struct whose string
fields A (value "x") and B (value "") are both annotated omitempty, the
encoded text `a=x` includes key `a` and contains no occurrence of key `b`. -/
theorem c5_omitempty_amended_witness :
    gs "b" ∉ (queryPairs (gs "a=x")).map Prod.fst ∧
    gs "a" ∈ (queryPairs (gs "a=x")).map Prod.fst :=
  ⟨(c5_omitempty_amended
      [⟨gs "A", [], gs "urlenc:\"a,omitempty\"", .prim .kstring⟩,
       ⟨gs "B", [], gs "urlenc:\"b,omitempty\"", .prim .kstring⟩]
      [⟨gs "A", gs "a", true, .prim .kstring⟩,
       ⟨gs "B", gs "b", true, .prim .kstring⟩]
      (fun n => if n = gs "A" then .vstr (gs "x") else .vstr [])
      ⟨gs "B", gs "b", true, .prim .kstring⟩ (gs "a=x")
      (by decide) (by decide) (by decide) (by decide) (by decide) rfl
      (by decide)).1 (by decide),
   (c5_omitempty_amended
      [⟨gs "A", [], gs "urlenc:\"a,omitempty\"", .prim .kstring⟩,
       ⟨gs "B", [], gs "urlenc:\"b,omitempty\"", .prim .kstring⟩]
      [⟨gs "A", gs "a", true, .prim .kstring⟩,
       ⟨gs "B", gs "b", true, .prim .kstring⟩]
      (fun n => if n = gs "A" then .vstr (gs "x") else .vstr [])
      ⟨gs "A", gs "a", true, .prim .kstring⟩ (gs "a=x")
      (by decide) (by decide) (by decide) (by decide) (by decide) rfl
      (by decide)).2 (by decide)
      (fun et h => by
        have h2 : GoValue.vstr (gs "x") = GoValue.vslice false et [] := h
        cases h2)⟩

theorem marshalMapEntries_wf :
    ∀ (m : MapRec) (uv uv2 : Values),
      (uv.map Prod.fst).Nodup → EntriesWF uv →
      (∀ p ∈ m, ByteWF p.1 ∧ WT (typeOf p.2) p.2 = true) →
      marshalMapEntries uv m = .ok uv2 → ValuesWF uv2 := by
  intro m
  induction m with
  | nil =>
    intro uv uv2 hnd hwf _ h
    injection h with h
    subst h
    exact ⟨hnd, hwf⟩
  | cons p rest ih =>
    obtain ⟨k, fv⟩ := p
    intro uv uv2 hnd hwf hm h
    obtain ⟨hk, hwt⟩ := hm (k, fv) (List.mem_cons_self _ _)
    have htail := fun q hq => hm q (List.mem_cons_of_mem _ hq)
    simp only [marshalMapEntries] at h
    by_cases hsup : isSupportedType (typeOf fv) true = true
    · rw [if_neg (by rw [hsup]; exact Bool.false_ne_true)] at h
      cases fv with
      | vstr s =>
        obtain ⟨s2, hcs, hbw, _⟩ := convert_roundtrip .kstring (.vstr s) hwt
        have haddv := addValue_scalar uv k (.vstr s) (.prim .kstring) s2 rfl hcs
        simp only [typeOf] at h
        simp only [haddv] at h
        exact ih (valuesAdd uv k s2) uv2 (valuesAdd_keys_nodup uv k s2 hnd)
          (valuesAdd_entries_wf uv k s2 hwf hk hbw) htail h
      | vint k2 n =>
        obtain ⟨s2, hcs, hbw, _⟩ := convert_roundtrip k2 (.vint k2 n) hwt
        have haddv := addValue_scalar uv k (.vint k2 n) (.prim k2) s2 rfl hcs
        simp only [typeOf] at h
        simp only [haddv] at h
        exact ih (valuesAdd uv k s2) uv2 (valuesAdd_keys_nodup uv k s2 hnd)
          (valuesAdd_entries_wf uv k s2 hwf hk hbw) htail h
      | vslice b et elems =>
        obtain ⟨k2, hk2⟩ := supported_slice_elem et hsup
        subst hk2
        have hels : ∀ v ∈ elems, WT (.prim k2) v = true := by
          simp only [typeOf, WT, Bool.and_eq_true, List.all_eq_true] at hwt
          exact fun v hv => hwt.2 v hv
        obtain ⟨ses, hca, hbws, _, _⟩ := convertAll_roundtrip k2 elems hels
        have haddv := addValue_slice uv k b (.prim k2) elems
          (.slice (.prim k2)) ses rfl hca
        simp only [typeOf] at h
        simp only [haddv] at h
        exact ih (addAll uv k ses) uv2 (addAll_keys_nodup uv k ses hnd)
          (addAll_entries_wf uv k ses hwf hk hbws) htail h
    · have hf2 : isSupportedType (typeOf fv) true = false :=
        Bool.eq_false_iff.2 hsup
      rw [if_pos (by rw [hf2]; rfl)] at h
      cases h

/-- C10: a record or mapping that encodes successfully lists its keys in the
produced text in ascending lexicographic byte order (not declaration or
iteration order), and the values found under each key, repeated keys
included, are exactly that key's contribution in insertion order. -/
theorem c10_encode_sorted_keys (st : StructType) (fields : List structfield)
    (r : Record) (m : MapRec) (outS outM : GoStr)
    (hsf : getStructFields st = .ok fields)
    (hknd : (fields.map structfield.KeyName).Nodup)
    (hwtf : ∀ g ∈ fields, WT g.Typ (r g.FieldName) = true)
    (hkeys : ∀ g ∈ fields, ByteWF g.KeyName)
    (houtS : marshalStruct st r = .ok outS)
    (hm : ∀ p ∈ m, ByteWF p.1 ∧ WT (typeOf p.2) p.2 = true)
    (houtM : marshalMap m = .ok outM) :
    (List.Sorted (· ≤ ·) ((queryPairs outS).map Prod.fst) ∧
      ∀ f ∈ fields, ((queryPairs outS).filter
        (fun p => p.1 == f.KeyName)).map Prod.snd = contribOf r f) ∧
    (List.Sorted (· ≤ ·) ((queryPairs outM).map Prod.fst) ∧
      ∃ uv, marshalMapValues m = .ok uv ∧
        ∀ k, ((queryPairs outM).filter (fun p => p.1 == k)).map Prod.snd =
          (valuesGet uv k).getD []) := by
  constructor
  · obtain ⟨hms, hwf, hget, _⟩ := marshal_master st fields r hsf hknd hwtf hkeys
    rw [hms] at houtS
    injection houtS with houtS
    subst houtS
    obtain ⟨hsort, hfilt⟩ := encode_text_props (uvOf fields r) hwf
    refine ⟨hsort, ?_⟩
    intro f hf
    rw [hfilt f.KeyName, hget f hf]
  · rcases hmv : marshalMapValues m with _ | e | uv
    · rw [marshalMap, hmv] at houtM
      cases houtM
    · rw [marshalMap, hmv] at houtM
      cases houtM
    · rw [marshalMap] at houtM
      simp only [hmv] at houtM
      injection houtM with houtM
      subst houtM
      have hwfM : ValuesWF uv :=
        marshalMapEntries_wf m [] uv (by simp)
          (fun q hq => absurd hq (List.not_mem_nil q)) hm hmv
      obtain ⟨hsort, hfilt⟩ := encode_text_props uv hwfM
      exact ⟨hsort, uv, rfl, hfilt⟩

/-- Concrete witness for C10: a two-field record encodes to
`bar=one&qux=three&qux=4` and the map `{b: "2", a: "1"}`, iterated with
`b` first, encodes to `a=1&b=2`; both key sequences are sorted. -/
theorem c10_encode_sorted_keys_witness :
    List.Sorted (· ≤ ·)
      ((queryPairs (gs "bar=one&qux=three&qux=4")).map Prod.fst) ∧
    List.Sorted (· ≤ ·) ((queryPairs (gs "a=1&b=2")).map Prod.fst) := by
  have h := c10_encode_sorted_keys
    [⟨gs "Bar", [], gs "urlenc:\"bar\"", .prim .kstring⟩,
     ⟨gs "Qux", [], gs "urlenc:\"qux\"", .slice (.prim .kstring)⟩]
    [⟨gs "Bar", gs "bar", false, .prim .kstring⟩,
     ⟨gs "Qux", gs "qux", false, .slice (.prim .kstring)⟩]
    (fun n => if n = gs "Bar" then .vstr (gs "one")
      else .vslice false (.prim .kstring) [.vstr (gs "three"), .vstr (gs "4")])
    [(gs "b", .vstr (gs "2")), (gs "a", .vstr (gs "1"))]
    (gs "bar=one&qux=three&qux=4") (gs "a=1&b=2")
    (by decide) (by decide) (by decide) (by decide) (by decide) (by decide)
    (by decide)
  exact ⟨h.1.1, h.2.1⟩

/-- C1 counterexample: a schema-compatible struct whose two string fields
share the exposed key `k`, holding "x" and "y" (no omitempty anywhere, so
the claim's proviso is met), encodes to `k=x&k=y`, but decoding that text
into a fresh record assigns both fields the FIRST value for `k`, so field
`B` comes back "x", not "y": the round trip fails field-by-field. -/
theorem c1_counterexample :
    marshalStruct dupT dupR = .ok (gs "k=x&k=y") ∧
    unmarshalStruct dupT (gs "k=x&k=y") (zeroRecord dupT) =
      .done (setField (setField (zeroRecord dupT) (gs "A") (.vstr (gs "x")))
        (gs "B") (.vstr (gs "x"))) none ∧
    (setField (setField (zeroRecord dupT) (gs "A") (.vstr (gs "x")))
        (gs "B") (.vstr (gs "x"))) (gs "B") = .vstr (gs "x") ∧
    dupR (gs "B") = .vstr (gs "y") ∧
    (GoValue.vstr (gs "x") : GoValue) ≠ .vstr (gs "y") :=
  ⟨by decide, by rfl, by decide, by decide, by decide⟩

/-- Concrete witness for the amended C1: the `Foo` record (Bar "one", Baz 2,
Qux ["three","4"]) round-trips through encode and decode field-by-field. -/
theorem c1_roundtrip_amended_witness :
    ∃ out r2, marshalStruct fooT fooR = .ok out ∧
      unmarshalStruct fooT out (zeroRecord fooT) = .done r2 none ∧
      ∀ f ∈ fooFields, r2 f.FieldName = fooR f.FieldName :=
  c1_roundtrip_amended fooT fooFields fooR (by decide) (by decide) (by decide)
    (by decide) (by decide) (by decide) (by decide)
    (by
      intro f hf et h
      simp only [fooFields] at hf
      fin_cases hf <;>
        first
          | exact GoValue.noConfusion h
          | (injection h with h1 h2 h3; cases h3))
